import Mathlib

/-!
Verification of the zkvm-brainfuck arithmetization core against its
natural-language specification.

The definitions below are a shallow embedding of the Rust sources:

* `crates/core/executor/src/instruction.rs` — `Instruction`, `decode_from`;
* `crates/core/executor/src/program.rs` — `Program::from`, `Program::fetch`;
* `crates/core/executor/src/executor.rs` — the cycle interpreter
  (`execute_cycle`, `execute_instruction`, the `rr`/`rw` memory helpers,
  `emit_events`) and `Executor::run`;
* `crates/core/machine/src/program/mod.rs` — the Program chip multiplicity
  trace;
* `crates/core/machine/src/operations/add.rs` — `AddOperation`;
* `crates/core/machine/src/cpu/air.rs` and the air-builder helpers — the
  lookup messages emitted by the CPU chip's AIR.

Machine integers are embedded as `Nat` with explicit `% 2^w` at every
operation whose Rust counterpart wraps (`wrapping_add`, `wrapping_sub`,
release-mode `+` on `u32`/`u64`/`u8`).  Rust panics (out-of-bounds slice
indexing, `Option::unwrap` on `None`, `unreachable!`) are embedded as the
`Panic` error of an `Except`; the executor's `Result<_, ExecutionError>`
value-level `Err` is never constructed anywhere in the sources, so the
`Except` error channel of the embedding carries panics only.
-/

set_option maxHeartbeats 1000000
set_option maxRecDepth 10000

namespace BfZkvm

/-- The wrap modulus of `u32` arithmetic. -/
def u32Mod : Nat := 2 ^ 32

/-- The wrap modulus of `u64` arithmetic. -/
def u64Mod : Nat := 2 ^ 64

/-- Opcode (executor/src/opcode.rs): the eight Brainfuck operations, with
discriminants 0..7 in declaration order. -/
inductive Opcode where
  | loopStart
  | loopEnd
  | add
  | sub
  | memStepForward
  | memStepBackward
  | input
  | output
  deriving DecidableEq, Repr

/-- The integer discriminant of an opcode (`Opcode as u32`, used by
`Opcode::as_field`). -/
def Opcode.code : Opcode → Nat
  | .loopStart => 0
  | .loopEnd => 1
  | .add => 2
  | .sub => 3
  | .memStepForward => 4
  | .memStepBackward => 5
  | .input => 6
  | .output => 7

/-- Instruction (executor/src/instruction.rs): an opcode and the single
`op_a : u32` operand. -/
structure Instruction where
  opcode : Opcode
  op_a : Nat
  deriving DecidableEq, Repr

/-- `Instruction::is_alu_instruction`. -/
def Instruction.is_alu_instruction (i : Instruction) : Bool :=
  match i.opcode with
  | .add | .sub => true
  | _ => false

/-- `Instruction::is_jump_instruction`. -/
def Instruction.is_jump_instruction (i : Instruction) : Bool :=
  match i.opcode with
  | .loopStart | .loopEnd => true
  | _ => false

/-- `Instruction::is_memory_instruction`. -/
def Instruction.is_memory_instruction (i : Instruction) : Bool :=
  match i.opcode with
  | .memStepForward | .memStepBackward => true
  | _ => false

/-- `Instruction::is_io_instruction`. -/
def Instruction.is_io_instruction (i : Instruction) : Bool :=
  match i.opcode with
  | .input | .output => true
  | _ => false

/-- Rust panics of the embedded code.  Each constructor names one concrete
panic site. -/
inductive Panic where
  /-- `loop_stack.pop().unwrap()` on an empty stack, or
  `operand.unwrap()` in `Instruction::decode_from`. -/
  | unwrapNone
  /-- The `unreachable!()` arm of `Instruction::decode_from` (unknown
  source character). -/
  | unknownChar
  /-- Out-of-bounds index `instructions[start_pos]` while patching a
  loop start. -/
  | patchOOB
  /-- Out-of-bounds index in `Program::fetch` (`self.instructions[pc]`). -/
  | fetchOOB
  /-- Out-of-bounds index `input_stream[input_stream_ptr]` on `,`. -/
  | inputOOB
  /-- An `unreachable!()` arm of an `execute_*` helper. -/
  | unreachableOp
  deriving DecidableEq, Repr

/-- `Instruction::decode_from` (instruction.rs).  The `operand.unwrap()`
of the bracket arms panics when the operand is `None`; the catch-all arm
is `unreachable!()`. -/
def decode_from (c : Char) (operand : Option Nat) : Except Panic Instruction :=
  if c = '>' then .ok ⟨.memStepForward, 0⟩
  else if c = '<' then .ok ⟨.memStepBackward, 0⟩
  else if c = '+' then .ok ⟨.add, 0⟩
  else if c = '-' then .ok ⟨.sub, 0⟩
  else if c = '.' then .ok ⟨.output, 0⟩
  else if c = ',' then .ok ⟨.input, 0⟩
  else if c = '[' then
    match operand with
    | some v => .ok ⟨.loopStart, v⟩
    | none => .error .unwrapNone
  else if c = ']' then
    match operand with
    | some v => .ok ⟨.loopEnd, v⟩
    | none => .error .unwrapNone
  else .error .unknownChar

/-- The loop body of `Program::from` (program.rs), processing the source
characters in order while carrying the emitted instructions and the stack
of open-bracket indices.  The `usize → u32` casts on instruction indices
are embedded as plain `Nat` (they are exact for any program shorter than
`2^32` instructions, which the executor's `u32` program counter already
presupposes).  Note that the final leftover stack is *not* inspected by
the source: `Program::from` returns `Ok` even when open brackets remain. -/
def parseAux : List Char → List Instruction → List Nat →
    Except Panic (List Instruction × List Nat)
  | [], instructions, loop_stack => .ok (instructions, loop_stack)
  | c :: cs, instructions, loop_stack =>
    if c = '[' then
      match decode_from c (some 0) with
      | .error p => .error p
      | .ok ins =>
        parseAux cs (instructions ++ [ins])
          (((instructions ++ [ins]).length - 1) :: loop_stack)
    else if c = ']' then
      match loop_stack with
      | [] => .error .unwrapNone
      | start_pos :: rest =>
        match instructions[start_pos]? with
        | none => .error .patchOOB
        | some old =>
          match decode_from c (some (start_pos + 1)) with
          | .error p => .error p
          | .ok ins =>
            parseAux cs
              ((instructions.set start_pos { old with op_a := instructions.length }) ++ [ins])
              rest
    else if c ≠ ' ' ∧ c ≠ '\n' ∧ c ≠ '\r' then
      match decode_from c none with
      | .error p => .error p
      | .ok ins => parseAux cs (instructions ++ [ins]) loop_stack
    else
      parseAux cs instructions loop_stack

/-- Program (executor/src/program.rs). -/
structure Program where
  instructions : List Instruction
  deriving DecidableEq, Repr

/-- `Program::from` (program.rs).  The Rust signature is
`Result<Program>`, but the body never constructs the `Err` variant: the
`.error` outcomes of this embedding are the panics of the loop body
(`unwrap` on an unmatched `]`, `unreachable!` on an unknown character),
and every non-panicking run returns `Ok` — the leftover `loop_stack` of
an unmatched `[` is silently dropped. -/
def Program.from (code : String) : Except Panic Program :=
  match parseAux code.data [] [] with
  | .error p => .error p
  | .ok (instructions, _) => .ok ⟨instructions⟩

/-- Bracket balance of a source character list: every prefix has at least
as many `[` as `]`, and the totals agree.  (Used to state which sources
are malformed; independent of the parser.) -/
def balancedFrom : Int → List Char → Bool
  | d, [] => d == 0
  | d, c :: cs =>
    if c = '[' then balancedFrom (d + 1) cs
    else if c = ']' then decide (0 < d) && balancedFrom (d - 1) cs
    else balancedFrom d cs

/-- MemoryRecord (events/memory.rs): the canonical per-address state,
`(timestamp: u32, value: u8)`. -/
structure MemoryRecord where
  timestamp : Nat
  value : Nat
  deriving DecidableEq, Repr

/-- MemoryReadRecord (events/memory.rs). -/
structure MemoryReadRecord where
  value : Nat
  timestamp : Nat
  prev_timestamp : Nat
  deriving DecidableEq, Repr

/-- MemoryWriteRecord (events/memory.rs). -/
structure MemoryWriteRecord where
  value : Nat
  timestamp : Nat
  prev_value : Nat
  prev_timestamp : Nat
  deriving DecidableEq, Repr

/-- MemoryRecordEnum (events/memory.rs). -/
inductive MemoryRecordEnum where
  | read (r : MemoryReadRecord)
  | write (w : MemoryWriteRecord)
  deriving DecidableEq, Repr

/-- MemoryEvent (events/memory.rs): initial and final access of one
address. -/
structure MemoryEvent where
  addr : Nat
  initial_mem_access : MemoryRecord
  final_mem_access : MemoryRecord
  deriving DecidableEq, Repr

/-- CpuEvent, with exactly the fields the executor constructs in
`Executor::emit_events` (executor.rs).  The struct declaration matching
this constructor call is missing from the sources (the two `CpuEvent`
declarations present are stale variants); the field list is taken from
the constructor call itself. -/
structure CpuEvent where
  clk : Nat
  pc : Nat
  next_pc : Nat
  mp : Nat
  next_mp : Nat
  next_mv : Nat
  mv : Nat
  next_mv_access : Option MemoryRecordEnum
  mv_access : Option MemoryRecordEnum
  deriving DecidableEq, Repr

/-- AluEvent (events/instr.rs). -/
structure AluEvent where
  pc : Nat
  opcode : Opcode
  mv_next : Nat
  mv : Nat
  deriving DecidableEq, Repr

/-- JumpEvent (events/instr.rs). -/
structure JumpEvent where
  pc : Nat
  next_pc : Nat
  opcode : Opcode
  dst : Nat
  mv : Nat
  deriving DecidableEq, Repr

/-- MemInstrEvent (events/instr.rs). -/
structure MemInstrEvent where
  clk : Nat
  pc : Nat
  opcode : Opcode
  mp : Nat
  next_mp : Nat
  deriving DecidableEq, Repr

/-- IoEvent (events/instr.rs). -/
structure IoEvent where
  pc : Nat
  opcode : Opcode
  mp : Nat
  mv : Nat
  deriving DecidableEq, Repr

/-- ExecutionState (state.rs).  The `memory_access` hash map is embedded
as a function to `Option MemoryRecord`. -/
structure ExecutionState where
  pc : Nat
  memory_access : Nat → Option MemoryRecord
  mem_ptr : Nat
  global_clk : Nat
  clk : Nat
  input_stream : List Nat
  input_stream_ptr : Nat
  output_stream : List Nat

/-- ExecutionRecord (record.rs), restricted to the per-kind event vectors
the executor appends to.  The `cpu_memory_access` vector is filled by
`Executor::run` by draining the `memory_events` hash map in unspecified
hash order, so the per-address map itself (kept on the `Executor`) is the
faithful object to reason about. -/
structure ExecutionRecord where
  cpu_events : List CpuEvent
  add_events : List AluEvent
  jump_events : List JumpEvent
  memory_instr_events : List MemInstrEvent
  io_events : List IoEvent

/-- MemoryAccessRecord (record.rs), in the field naming the executor
actually uses (`mv` / `next_mv`): the per-cycle scratch slots for the two
possible memory accesses of a cycle. -/
structure MemoryAccessRecord where
  mv : Option MemoryRecordEnum
  next_mv : Option MemoryRecordEnum

/-- Executor (executor.rs): program, state, record, per-cycle access
scratch, and the per-address memory-event map. -/
structure Executor where
  program : List Instruction
  state : ExecutionState
  record : ExecutionRecord
  memory_accesses : MemoryAccessRecord
  memory_events : Nat → Option MemoryEvent

/-- `Executor::new`: fresh state over a program and an input stream. -/
def mkExecutor (program : List Instruction) (input : List Nat) : Executor where
  program := program
  state :=
    { pc := 0
      memory_access := fun _ => none
      mem_ptr := 0
      global_clk := 0
      clk := 0
      input_stream := input
      input_stream_ptr := 0
      output_stream := [] }
  record :=
    { cpu_events := []
      add_events := []
      jump_events := []
      memory_instr_events := []
      io_events := [] }
  memory_accesses := { mv := none, next_mv := none }
  memory_events := fun _ => none

/-- `Executor::rr_traced` (executor.rs): read the record at `addr`
(inserting the zero default on first touch), bump its timestamp to
`timestamp`, update the per-address `MemoryEvent` (initial sticky, final
overwritten), and return the `MemoryReadRecord`. -/
def rr_traced (e : Executor) (addr timestamp : Nat) :
    MemoryReadRecord × Executor :=
  let prev_record := (e.state.memory_access addr).getD ⟨0, 0⟩
  let record : MemoryRecord := { prev_record with timestamp := timestamp }
  let ev : MemoryEvent :=
    match e.memory_events addr with
    | some old => { old with final_mem_access := record }
    | none => ⟨addr, prev_record, record⟩
  (⟨record.value, record.timestamp, prev_record.timestamp⟩,
    { e with
        state :=
          { e.state with
              memory_access := Function.update e.state.memory_access addr (some record) }
        memory_events := Function.update e.memory_events addr (some ev) })

/-- `Executor::rw_traced` (executor.rs): like `rr_traced` but also
overwrites the value; returns the `MemoryWriteRecord`. -/
def rw_traced (e : Executor) (addr value timestamp : Nat) :
    MemoryWriteRecord × Executor :=
  let prev_record := (e.state.memory_access addr).getD ⟨0, 0⟩
  let record : MemoryRecord := ⟨timestamp, value⟩
  let ev : MemoryEvent :=
    match e.memory_events addr with
    | some old => { old with final_mem_access := record }
    | none => ⟨addr, prev_record, record⟩
  (⟨record.value, record.timestamp, prev_record.value, prev_record.timestamp⟩,
    { e with
        state :=
          { e.state with
              memory_access := Function.update e.state.memory_access addr (some record) }
        memory_events := Function.update e.memory_events addr (some ev) })

/-- `Executor::rr_cpu`: traced read, recorded into the `mv` scratch
slot; returns the read value. -/
def rr_cpu (e : Executor) (addr timestamp : Nat) : Nat × Executor :=
  let p := rr_traced e addr timestamp
  (p.1.value,
    { p.2 with memory_accesses := { p.2.memory_accesses with mv := some (.read p.1) } })

/-- `Executor::rw_cpu`: traced write, recorded into the `next_mv` scratch
slot when `is_alu`, else into `mv`. -/
def rw_cpu (e : Executor) (register value timestamp : Nat) (is_alu : Bool) : Executor :=
  let p := rw_traced e register value timestamp
  if is_alu then
    { p.2 with memory_accesses := { p.2.memory_accesses with next_mv := some (.write p.1) } }
  else
    { p.2 with memory_accesses := { p.2.memory_accesses with mv := some (.write p.1) } }

/-- `Executor::execute_memory`: move the memory pointer with `u32`
wrapping.  The catch-all arm is `unreachable!()` in the source (the
dispatcher only calls this on `>`/`<`); it is embedded as the identity
on the pointer. -/
def execute_memory (e : Executor) (instruction : Instruction) : Executor :=
  let mp :=
    match instruction.opcode with
    | .memStepForward => (e.state.mem_ptr + 1) % u32Mod
    | .memStepBackward => (u32Mod - 1 + e.state.mem_ptr) % u32Mod
    | _ => e.state.mem_ptr
  { e with state := { e.state with mem_ptr := mp } }

/-- `Executor::execute_alu`: read `mv` at `clk+1`, write `mv ± 1 (mod
256)` back at `clk+2`; returns `(next_mv, mv)`.  The catch-all arm is
`unreachable!()` in the source. -/
def execute_alu (e : Executor) (instruction : Instruction) : (Nat × Nat) × Executor :=
  let p := rr_cpu e e.state.mem_ptr ((e.state.clk + 1) % u32Mod)
  let next_mv :=
    match instruction.opcode with
    | .add => (p.1 + 1) % 256
    | .sub => (p.1 + 255) % 256
    | _ => p.1
  let e2 := rw_cpu p.2 p.2.state.mem_ptr next_mv ((p.2.state.clk + 2) % u32Mod) true
  ((next_mv, p.1), e2)

/-- `Executor::execute_jump`: read `mv` at `clk+1` and choose `next_pc`
from `op_a` or `pc+1`; returns `(mv, next_pc)`.  The catch-all arm is
`unreachable!()` in the source. -/
def execute_jump (e : Executor) (instruction : Instruction) : (Nat × Nat) × Executor :=
  let p := rr_cpu e e.state.mem_ptr ((e.state.clk + 1) % u32Mod)
  let next_pc :=
    match instruction.opcode with
    | .loopStart =>
      if p.1 = 0 then instruction.op_a else (p.2.state.pc + 1) % u32Mod
    | .loopEnd =>
      if p.1 ≠ 0 then instruction.op_a else (p.2.state.pc + 1) % u32Mod
    | _ => (p.2.state.pc + 1) % u32Mod
  ((p.1, next_pc), p.2)

/-- `Executor::execute_io` (named with an `_instr` suffix here): on `,`
index the input stream — a Rust panic when exhausted, and note that
`input_stream_ptr` is *never* incremented anywhere in the executor — and
write the byte at `clk+1`; on `.` read at `clk+1` and append to the
output stream.  Returns `mv`. -/
def execute_io_instr (e : Executor) (instruction : Instruction) :
    Except Panic (Nat × Executor) :=
  match instruction.opcode with
  | .input =>
    match e.state.input_stream[e.state.input_stream_ptr]? with
    | none => .error .inputOOB
    | some input =>
      .ok (input, rw_cpu e e.state.mem_ptr input ((e.state.clk + 1) % u32Mod) false)
  | .output =>
    let p := rr_cpu e e.state.mem_ptr ((e.state.clk + 1) % u32Mod)
    .ok (p.1,
      { p.2 with
          state := { p.2.state with output_stream := p.2.state.output_stream ++ [p.1] } })
  | _ => .error .unreachableOp

/-- `Executor::emit_events`: push the `CpuEvent` of the cycle (reading
both access scratch slots), push the chip-specific event, and clear the
scratch slots. -/
def emit_events (e : Executor) (next_pc : Nat) (instruction : Instruction)
    (jmp_dst mp next_mv mv : Nat) : Executor :=
  let cpuEv : CpuEvent :=
    { clk := e.state.clk
      pc := e.state.pc
      next_pc := next_pc
      mp := mp
      next_mp := e.state.mem_ptr
      next_mv := next_mv
      mv := mv
      next_mv_access := e.memory_accesses.next_mv
      mv_access := e.memory_accesses.mv }
  let r := e.record
  let r := { r with cpu_events := r.cpu_events ++ [cpuEv] }
  let r :=
    if instruction.is_alu_instruction then
      { r with add_events := r.add_events ++ [⟨e.state.pc, instruction.opcode, next_mv, mv⟩] }
    else r
  let r :=
    if instruction.is_jump_instruction then
      { r with jump_events :=
          r.jump_events ++ [⟨e.state.pc, next_pc, instruction.opcode, jmp_dst, mv⟩] }
    else r
  let r :=
    if instruction.is_memory_instruction then
      { r with memory_instr_events :=
          r.memory_instr_events ++
            [⟨e.state.clk, e.state.pc, instruction.opcode, mp, e.state.mem_ptr⟩] }
    else r
  let r :=
    if instruction.is_io_instruction then
      { r with io_events := r.io_events ++ [⟨e.state.pc, instruction.opcode, mp, mv⟩] }
    else r
  { e with record := r, memory_accesses := { mv := none, next_mv := none } }

/-- The common tail of `Executor::execute_instruction`: emit the events,
then update `pc` and advance `clk` by 2 (release-mode `u32` wrap). -/
def post_dispatch (e : Executor) (next_pc : Nat) (instruction : Instruction)
    (jmp_dst mp next_mv mv : Nat) : Executor :=
  let e2 := emit_events e next_pc instruction jmp_dst mp next_mv mv
  { e2 with
      state := { e2.state with pc := next_pc, clk := (e2.state.clk + 2) % u32Mod } }

/-- `Executor::execute_instruction`: dispatch on the opcode, then emit
events and step `pc`/`clk`.  `next_pc` defaults to `pc.wrapping_add(1)`,
`jmp_dst`/`next_mv`/`mv` default to 0, `mp` is the pre-cycle pointer. -/
def execute_instruction (e : Executor) (instruction : Instruction) :
    Except Panic Executor :=
  let next_pc := (e.state.pc + 1) % u32Mod
  let mp := e.state.mem_ptr
  match instruction.opcode with
  | .memStepForward | .memStepBackward =>
    .ok (post_dispatch (execute_memory e instruction) next_pc instruction 0 mp 0 0)
  | .add | .sub =>
    let p := execute_alu e instruction
    .ok (post_dispatch p.2 next_pc instruction 0 mp p.1.1 p.1.2)
  | .loopStart | .loopEnd =>
    let p := execute_jump e instruction
    .ok (post_dispatch p.2 p.1.2 instruction p.1.2 mp 0 p.1.1)
  | .input | .output =>
    match execute_io_instr e instruction with
    | .error pk => .error pk
    | .ok q => .ok (post_dispatch q.2 next_pc instruction 0 mp 0 q.1)

/-- `Executor::execute_cycle`: fetch (`Program::fetch` indexes the
instruction vector, a panic when `pc` is out of bounds), execute, bump
`global_clk`, and report whether `pc` has reached the program length
(compared as `u32`). -/
def execute_cycle (e : Executor) : Except Panic (Bool × Executor) :=
  match e.program[e.state.pc]? with
  | none => .error .fetchOOB
  | some instruction =>
    match execute_instruction e instruction with
    | .error p => .error p
    | .ok e1 =>
      let e2 :=
        { e1 with state := { e1.state with global_clk := (e1.state.global_clk + 1) % u64Mod } }
      .ok (e2.state.pc == e2.program.length % u32Mod, e2)

/-- `Executor::run`, fuel-indexed: `ok (some e)` is a finished run,
`ok none` means the fuel ran out with the loop still running, and
`error` is a Rust panic.  (The source's final drain of `memory_events`
into `record.cpu_memory_access` walks a hash map in unspecified order
and is not modelled; the per-address map is retained instead.) -/
def runFuel : Nat → Executor → Except Panic (Option Executor)
  | 0, _ => .ok none
  | n + 1, e =>
    match execute_cycle e with
    | .error p => .error p
    | .ok (true, e1) => .ok (some e1)
    | .ok (false, e1) => runFuel n e1

/-- Extract the final executor of a finished run, with a default. -/
def runOut (r : Except Panic (Option Executor)) (d : Executor) : Executor :=
  match r with
  | .ok (some e) => e
  | _ => d

/-- Bracket weight of an instruction: `+1` for `[`, `-1` for `]`, `0`
otherwise. -/
def opcVal (i : Instruction) : Int :=
  if i.opcode = .loopStart then 1 else if i.opcode = .loopEnd then -1 else 0

/-- Net bracket count of the first `k` instructions. -/
def depth (l : List Instruction) (k : Nat) : Int :=
  ((l.take k).map opcVal).sum

/-- `isMatch l i j`: the `[` at instruction index `i` and the `]` at
instruction index `j` are a matching bracket pair: the net bracket count
returns to its starting level exactly after `j` and stays strictly above
it in between. -/
def isMatch (l : List Instruction) (i j : Nat) : Prop :=
  i < j ∧ j < l.length ∧
  (∃ a, l[i]? = some a ∧ a.opcode = .loopStart) ∧
  (∃ b, l[j]? = some b ∧ b.opcode = .loopEnd) ∧
  depth l (j + 1) = depth l i ∧
  ∀ k, i < k → k ≤ j → depth l i < depth l k

/-- The per-`pc` count of CPU events, modelling the `instruction_counts`
hash map of `ProgramChip::generate_trace` (machine/src/program/mod.rs). -/
def instructionCounts (events : List CpuEvent) (pc : Nat) : Nat :=
  (events.filter (fun ev => ev.pc == pc)).length

/-- The multiplicity column of the Program chip's main trace
(`ProgramChip::generate_trace`): for each instruction index `i` the code
looks up the count at key `i * 4` (`let pc = i as u32 * 4`). -/
def programMultiplicities (program : List Instruction) (events : List CpuEvent) : List Nat :=
  (List.range program.length).map (fun i => instructionCounts events (i * 4))

/-- The accesses of one CPU event at address `a`, in cycle order: the
`mv` access (timestamp `clk+1`) before the `next_mv` access (`clk+2`).
Every cycle's accesses target the pre-cycle memory pointer, which the
event stores in `mp`. -/
def accessesOf (ev : CpuEvent) (a : Nat) : List MemoryRecordEnum :=
  (if ev.mp = a then ev.mv_access.toList else []) ++
    (if ev.mp = a then ev.next_mv_access.toList else [])

/-- All accesses to address `a` over a run, in cycle order. -/
def addrAccesses (events : List CpuEvent) (a : Nat) : List MemoryRecordEnum :=
  events.flatMap (fun ev => accessesOf ev a)

/-- The timestamp of an access record. -/
def tsOf : MemoryRecordEnum → Nat
  | .read r => r.timestamp
  | .write w => w.timestamp

/-- `accOK m acc`: the access `acc` is a faithful continuation of the
stored record `m`: its previous-state fields repeat `m` and its
timestamp strictly increases. -/
def accOK (m : MemoryRecord) : MemoryRecordEnum → Prop
  | .read r => r.prev_timestamp = m.timestamp ∧ r.value = m.value ∧ m.timestamp < r.timestamp
  | .write w => w.prev_timestamp = m.timestamp ∧ w.prev_value = m.value ∧ m.timestamp < w.timestamp

instance (m : MemoryRecord) (acc : MemoryRecordEnum) : Decidable (accOK m acc) :=
  match acc with
  | .read _ => inferInstanceAs (Decidable (_ ∧ _ ∧ _))
  | .write _ => inferInstanceAs (Decidable (_ ∧ _ ∧ _))

/-- The stored record after an access. -/
def applyAcc (m : MemoryRecord) : MemoryRecordEnum → MemoryRecord
  | .read r => ⟨r.timestamp, m.value⟩
  | .write w => ⟨w.timestamp, w.value⟩

/-- `chainOK m l`: starting from stored record `m`, every access of `l`
is a faithful continuation of its predecessor. -/
def chainOK : MemoryRecord → List MemoryRecordEnum → Prop
  | _, [] => True
  | m, acc :: rest => accOK m acc ∧ chainOK (applyAcc m acc) rest

instance : ∀ (m : MemoryRecord) (l : List MemoryRecordEnum), Decidable (chainOK m l)
  | _, [] => inferInstanceAs (Decidable True)
  | m, acc :: rest =>
    have := instDecidableChainOK (applyAcc m acc) rest
    inferInstanceAs (Decidable (_ ∧ _))

/-- The stored record after a sequence of accesses. -/
def chainEnd (m : MemoryRecord) (l : List MemoryRecordEnum) : MemoryRecord :=
  l.foldl applyAcc m

/-- The KoalaBear prime `2^31 - 2^24 + 1`, the base field of the
machine. -/
def kbP : Nat := 2130706433

/-- The base field. -/
abbrev F : Type := ZMod kbP

instance : NeZero kbP := ⟨by norm_num [kbP]⟩

/-- The four AIR constraints of `AddOperation::eval`
(machine/src/operations/add.rs), specialised to `is_real = 1`: the
overflow `a + b - value` is 0 or 256, the carry selects which, and the
carry is boolean. -/
def addOperationConstraints (a b value carry : F) : Prop :=
  (a + b - value) * (a + b - value - 256) = 0 ∧
  carry * (a + b - value - 256) = 0 ∧
  (carry - 1) * (a + b - value) = 0 ∧
  carry * (carry - 1) = 0

/-- `AddOperation::populate` (add.rs) on byte operands: sets
`value := a.wrapping_add(b)` and sets `carry := 1` when `a + b > 255`
(leaving the pre-existing column value `carry0` otherwise — the trace
row starts zeroed).  Returns the `(value, carry)` column pair. -/
def addOperationPopulate (carry0 : F) (a b : Nat) : F × F :=
  ((((a + b) % 256 : Nat) : F), if 255 < a + b then 1 else carry0)

/-- Lookup bus tags.  The first seven are the `LookupKind` enum of
stark/src/lookup/lookup.rs.  `memInstr` and `ioBus` are referenced by
the air-builder methods (`LookupKind::MemInstr`, `LookupKind::IO`) but
their declaration is missing from the sources; modelled from the spec's
bus list. -/
inductive LookupKind where
  | memory
  | program
  | alu
  | jump
  | byte
  | range
  | fieldOp
  | memInstr
  | ioBus
  deriving DecidableEq, Repr

/-- Whether a message is sent or received. -/
inductive Direction where
  | send
  | receive
  deriving DecidableEq, Repr

/-- Modelled from the spec: `AirLookup` (referenced throughout the air
builders, declaration missing from the sources) — a lookup message with
its value tuple, multiplicity and bus tag. -/
structure AirLookup where
  values : List F
  multiplicity : F
  kind : LookupKind
  deriving DecidableEq, Repr

/-- A directed lookup message. -/
abbrev Msg : Type := Direction × AirLookup

/-- MemoryAccessCols (machine/src/memory/mod.rs). -/
structure MemoryAccessCols where
  value : F
  prev_clk : F
  diff_16bit_limb : F
  diff_8bit_limb : F

/-- MemoryReadWriteCols (machine/src/memory/mod.rs). -/
structure MemoryReadWriteCols where
  prev_value : F
  access : MemoryAccessCols

/-- Instruction columns `(opcode, op_a)`.  The `InstructionCols` present
in src (cpu/cols.rs) is a stale layout with three word operands that
does not match cpu/air.rs; modelled from the spec's instruction model. -/
structure InstructionCols where
  opcode : F
  op_a : F

/-- Modelled from the spec: the CPU row columns (spec §4.3).  The
`CpuCols` declaration in src (cpu/cols.rs) is a stale layout that does
not define the fields cpu/air.rs reads; the field list here is the one
cpu/air.rs uses. -/
structure CpuCols where
  clk_16bit_limb : F
  clk_8bit_limb : F
  pc : F
  next_pc : F
  instruction : InstructionCols
  mv : F
  next_mv : F
  mv_access : MemoryReadWriteCols
  next_mv_access : MemoryReadWriteCols
  is_mv_immutable : F
  is_alu : F
  is_jump : F
  is_memory_instr : F
  is_io_col : F
  is_real : F

/-- The 4-argument `send_byte` that every call site uses (the 5-argument
declaration in stark/src/air/builder.rs is a stale variant): values
`(opcode, a, b)` on the byte bus. -/
def send_byte_msg (opcode a b mult : F) : Msg :=
  (.send, ⟨[opcode, a, b], mult, .byte⟩)

/-- `eval_range_check_24bits` (machine/src/air/memory.rs): a 16-bit and
an 8-bit byte-bus range check on the two limbs. -/
def eval_range_check_24bits_msgs (limb16 limb8 do_check : F) : List Msg :=
  [send_byte_msg 1 0 limb16 do_check, send_byte_msg 0 limb8 0 do_check]

/-- `range_check_u8` (machine/src/air/u8_air.rs). -/
def range_check_u8_msgs (value mult : F) : List Msg :=
  [send_byte_msg 0 0 value mult]

/-- `eval_memory_access` (machine/src/air/memory.rs): the timestamp
range check, then the memory-bus send of the previous access and receive
of the current one. -/
def eval_memory_access_msgs (clk addr : F) (mac : MemoryReadWriteCols) (do_check : F) :
    List Msg :=
  eval_range_check_24bits_msgs mac.access.diff_16bit_limb mac.access.diff_8bit_limb do_check ++
    [(.send, ⟨[mac.access.prev_clk, addr, mac.prev_value], do_check, .memory⟩),
      (.receive, ⟨[clk, addr, mac.access.value], do_check, .memory⟩)]

/-- `send_program` (machine/src/air/program.rs): values are the `pc`,
then `instruction.opcode`, then the instruction column iterator (which
begins with the opcode again). -/
def send_program_msgs (pc : F) (ins : InstructionCols) (mult : F) : List Msg :=
  [(.send, ⟨[pc, ins.opcode, ins.opcode, ins.op_a], mult, .program⟩)]

/-- All lookup messages emitted by `CpuChip::eval` (cpu/air.rs), in
program order: the Program-bus send, the two `eval_memory_access`
calls and the `mv` byte range check of `eval_registers`, and the 24-bit
clk range check of `eval_clk`.  `eval_instruction` — the function that
would emit the Alu/Jump/MemInstr/IO dispatch sends — has its entire body
commented out and is never called from `eval`, so no other messages
exist. -/
def cpuEvalMessages (row : CpuCols) : List Msg :=
  let clk : F := 65536 * row.clk_8bit_limb + row.clk_16bit_limb
  send_program_msgs row.pc row.instruction row.is_real ++
    eval_memory_access_msgs clk row.mv row.mv_access (1 - row.is_memory_instr) ++
    eval_memory_access_msgs (clk + 1) row.next_mv row.next_mv_access row.is_alu ++
    range_check_u8_msgs row.mv row.is_real ++
    eval_range_check_24bits_msgs row.clk_16bit_limb row.clk_8bit_limb row.is_real

/-- AddOperation columns (add.rs). -/
structure AddOperationCols where
  value : F
  carry : F

/-- AddSubCols (machine/src/alu/cols.rs). -/
structure AddSubCols where
  pc : F
  add_operation : AddOperationCols
  next_mv : F
  mv : F
  is_add : F
  is_sub : F

/-- All lookup messages emitted by `AddSubChip::eval` (alu/air.rs): the
three byte range checks of `AddOperation::eval`, then the two Alu-bus
receives (one with multiplicity `is_add`, one with `is_sub`).  The
6-argument `receive_alu` this call site uses (with a `next_pc = pc + 1`
value) is missing from the sources; its value tuple is reconstructed
from the call site. -/
def addSubEvalMessages (row : AddSubCols) : List Msg :=
  range_check_u8_msgs row.next_mv (row.is_add + row.is_sub) ++
    range_check_u8_msgs row.mv (row.is_add + row.is_sub) ++
    range_check_u8_msgs row.add_operation.value (row.is_add + row.is_sub) ++
    [(.receive,
        ⟨[row.pc, row.pc + 1, 2, row.add_operation.value, row.mv], row.is_add, .alu⟩),
      (.receive,
        ⟨[row.pc, row.pc + 1, 2, row.mv, row.add_operation.value], row.is_sub, .alu⟩)]

/-- Whether a message is one of the four opcode-dispatch buses. -/
def isDispatchMsg (m : Msg) : Bool :=
  match m.2.kind with
  | .alu | .jump | .memInstr | .ioBus => true
  | _ => false

/-- Witness program: the single-instruction program `+`. -/
def wProgA : List Instruction := [⟨.add, 0⟩]

/-- Witness executor on `+` with empty input. -/
def wExecA : Executor := mkExecutor wProgA []

/-- The final executor of the one-cycle run of `+`. -/
def wFinalA : Executor := runOut (runFuel 1 wExecA) wExecA

/-- Witness program: the parse of `[]`. -/
def wProgB : List Instruction := [⟨.loopStart, 1⟩, ⟨.loopEnd, 1⟩]

/-- Witness executor on `[]` with empty input. -/
def wExecB : Executor := mkExecutor wProgB []

/-- The final executor of the two-cycle run of `[]`. -/
def wFinalB : Executor := runOut (runFuel 2 wExecB) wExecB

/-- The invariant of the `Program::from` loop relating the emitted
instruction list to the open-bracket stack (top first). -/
structure ParseInv (acc : List Instruction) (st : List Nat) : Prop where
  sorted : st.Chain' (· > ·)
  mem_lt : ∀ s ∈ st, s < acc.length
  mem_open : ∀ s ∈ st, acc[s]? = some ⟨.loopStart, 0⟩
  total : depth acc acc.length = st.length
  stack_depth : ∀ (idx : Nat) (s : Nat), st[idx]? = some s →
    depth acc s = (st.length : Int) - idx - 1
  stack_above : ∀ (idx : Nat) (s : Nat), st[idx]? = some s → ∀ k, s < k → k ≤ acc.length →
    ((st.length : Int) - idx) ≤ depth acc k
  starts : ∀ i ins, acc[i]? = some ins → ins.opcode = .loopStart → i ∉ st →
    ∃ j, isMatch acc i j ∧ ins.op_a = j
  ends : ∀ j ins, acc[j]? = some ins → ins.opcode = .loopEnd →
    ∃ i, isMatch acc i j ∧ ins.op_a = i + 1

/-- The per-address memory invariant of a run: the recorded accesses for
the address chain faithfully from the zero record to the stored record,
the stored timestamp is at most the current clock, and the per-address
`MemoryEvent` (when the address has been touched) carries the zero
record as `initial` and the stored record as `final`. -/
def PerAddr (rec : Option MemoryRecord) (evA : Option MemoryEvent)
    (ac : List MemoryRecordEnum) (c : Nat) (a : Nat) : Prop :=
  chainOK ⟨0, 0⟩ ac ∧
  chainEnd ⟨0, 0⟩ ac = rec.getD ⟨0, 0⟩ ∧
  (rec.getD ⟨0, 0⟩).timestamp ≤ c ∧
  (rec = none → ac = [] ∧ evA = none) ∧
  (∀ r, rec = some r → ac ≠ [] ∧
    ∃ ev, evA = some ev ∧ ev.addr = a ∧ ev.initial_mem_access = ⟨0, 0⟩ ∧
      ev.final_mem_access = r)

/-- The executor-level memory invariant: the per-cycle scratch slots are
clear, and every address satisfies `PerAddr`. -/
def MemInv (e : Executor) : Prop :=
  e.memory_accesses.mv = none ∧ e.memory_accesses.next_mv = none ∧
  ∀ a, PerAddr (e.state.memory_access a) (e.memory_events a)
    (addrAccesses e.record.cpu_events a) e.state.clk a

/-! Theorems. -/

/-- Claim C4: false of the code — `Program::from` never returns a parse
error.  On the malformed source `[` (an unbalanced open bracket) it
returns `Ok` with the placeholder `op_a = 0` still in place; on the
malformed sources `]` and `a` it panics (`unwrap` on `None`,
`unreachable!`) instead of returning `Err`; the `Err` variant of its
`Result` is constructed nowhere in the function. -/
theorem c4_parse_never_returns_err :
    balancedFrom 0 "[".data = false ∧
    Program.from "[" = .ok ⟨[⟨.loopStart, 0⟩]⟩ ∧
    Program.from "]" = .error .unwrapNone ∧
    Program.from "a" = .error .unknownChar :=
  ⟨rfl, rfl, rfl, rfl⟩

/-- Claim C3: false of the code — `input_stream_ptr` is never
incremented.  Running `,,.` on the input stream `[1, 2]` leaves the
pointer at 0, writes the byte 1 twice (the second `,` re-reads
`input_stream[0]`), and outputs `[1]`; the claim's successive-byte
consumption would output `[2]`. -/
theorem c3_input_pointer_never_advances :
    (runFuel 3 (mkExecutor [⟨.input, 0⟩, ⟨.input, 0⟩, ⟨.output, 0⟩] [1, 2])).map
      (fun r => r.map (fun e =>
        (e.state.input_stream_ptr, e.state.output_stream, e.state.memory_access 0))) =
    .ok (some (0, [1], some ⟨5, 1⟩)) :=
  rfl

/-- Claim C5: false of the code — executing `,` with an exhausted input
stream panics at the slice index `input_stream[input_stream_ptr]`
(embedded as the `inputOOB` panic); no `ExecutionError` value is ever
returned, since `Executor::run` constructs no `Err` anywhere. -/
theorem c5_input_exhaustion_panics :
    runFuel 1 (mkExecutor [⟨.input, 0⟩] []) = .error .inputOOB :=
  rfl

/-- Claim C6: false of the code — `ProgramChip::generate_trace` looks
the multiplicity of row `i` up at key `i * 4` (`let pc = i as u32 * 4`),
while CPU events carry instruction-index `pc`s.  Running `++` gives CPU
events at `pc = 0, 1`; the produced multiplicity column is `[1, 0]`
although one CPU event has `pc = 1`. -/
theorem c6_multiplicity_uses_scaled_pc :
    (runFuel 2 (mkExecutor [⟨.add, 0⟩, ⟨.add, 0⟩] [])).map
      (fun r => r.map (fun e =>
        (programMultiplicities e.program e.record.cpu_events,
          instructionCounts e.record.cpu_events 1))) =
    .ok (some ([1, 0], 1)) :=
  rfl

/-- Claim C8, counterexample: the empty source parses (balanced,
leaving no open bracket) to the empty program, and running it panics at
`Program::fetch` on the very first cycle — `Executor::run` executes a
cycle before checking `pc == len`, so the program counter 0 is not a
valid index. -/
theorem c8_empty_program_fetch_oob :
    parseAux [] [] [] = .ok ([], []) ∧ balancedFrom 0 [] = true ∧
    runFuel 1 (mkExecutor [] []) = .error .fetchOOB :=
  ⟨rfl, rfl, rfl⟩

/-- Claim C2, counterexample: parsing `[]` gives the `[` at index 0 the
operand `op_a = 1` — the index *of* its matching `]` (which is at index
1) — not `2`, the index one past it, as the claim states. -/
theorem c2_loop_start_op_a_not_successor :
    Program.from "[]" = .ok ⟨wProgB⟩ ∧ isMatch wProgB 0 1 ∧
    wProgB[0]? = some ⟨.loopStart, 1⟩ ∧ (1 : Nat) ≠ 1 + 1 := by
  refine ⟨rfl, ?_, rfl, by decide⟩
  refine ⟨by decide, by decide, ⟨⟨.loopStart, 1⟩, rfl, rfl⟩, ⟨⟨.loopEnd, 1⟩, rfl, rfl⟩,
    by decide, ?_⟩
  intro k h1 h2
  have hk : k = 1 := Nat.le_antisymm h2 h1
  subst hk
  decide

/-- 256 is invertible in the KoalaBear field. -/
theorem kb_inv256 : (256 : F) * 2122383361 = 1 := by decide

/-- Claim C9: for byte-range `a`, `b`, `value` and an arbitrary field
element `carry`, the `AddOperation::eval` constraints (with
`is_real = 1`) hold iff `value = (a + b) % 256` and `carry` is 1 exactly
when `a + b ≥ 256`; and `AddOperation::populate` (on a zeroed column
pair) produces exactly this witness. -/
theorem c9_add_operation_exact (a b v : Nat) (carry : F)
    (ha : a < 256) (hb : b < 256) (hv : v < 256) :
    (addOperationConstraints a b v carry ↔
      (v = (a + b) % 256 ∧ carry = if 256 ≤ a + b then 1 else 0)) ∧
    addOperationPopulate 0 a b =
      ((((a + b) % 256 : Nat) : F), if 256 ≤ a + b then (1 : F) else 0) := by
  constructor
  · constructor
    · rintro ⟨h1, h2, h3, h4⟩
      have hx : ((((a : Int) + b - v) : Int) : F) = (a : F) + b - v := by push_cast; ring
      have hdvd : (kbP : Int) ∣ ((a : Int) + b - v) * ((a : Int) + b - v - 256) := by
        apply (ZMod.intCast_zmod_eq_zero_iff_dvd _ kbP).mp
        push_cast
        linear_combination h1
      have hx0 : ((a : Int) + b - v) * ((a : Int) + b - v - 256) = 0 := by
        rcases hdvd with ⟨k, hk⟩
        have hlo : (0 : Int) ≤ (a : Int) + b - v + 255 := by omega
        have hhi : (0 : Int) ≤ 511 - ((a : Int) + b - v) := by omega
        have hb1 : ((a : Int) + b - v) * ((a : Int) + b - v - 256) ≤ 130305 := by
          nlinarith [mul_nonneg hlo hhi]
        have hb2 : (-16384 : Int) ≤ ((a : Int) + b - v) * ((a : Int) + b - v - 256) := by
          nlinarith [sq_nonneg ((a : Int) + b - v - 128)]
        have hkP : (kbP : Int) = 2130706433 := by norm_num [kbP]
        rw [hkP] at hk
        omega
      rcases mul_eq_zero.mp hx0 with hxz | hxz
      · have hab : a + b = v := by omega
        have hvf : (a : F) + b - v = 0 := by rw [← hx, hxz]; norm_num
        rw [hvf] at h2
        have h2a : carry * 256 = 0 := by linear_combination -h2
        have hc0 : carry = 0 := by
          calc carry = carry * 256 * 2122383361 := by rw [mul_assoc, kb_inv256, mul_one]
            _ = 0 := by rw [h2a, zero_mul]
        exact ⟨by omega, by rw [hc0, if_neg (by omega : ¬ 256 ≤ a + b)]⟩
      · have hx256 : (a : Int) + b - v = 256 := by omega
        have hab : a + b = v + 256 := by omega
        have hvf : (a : F) + b - v = 256 := by rw [← hx, hx256]; norm_num
        rw [hvf] at h3
        have hcd : carry - 1 = 0 := by
          calc carry - 1 = (carry - 1) * 256 * 2122383361 := by
                rw [mul_assoc, kb_inv256, mul_one]
            _ = 0 := by rw [h3, zero_mul]
        have hc1 : carry = 1 := by linear_combination hcd
        exact ⟨by omega, by rw [hc1, if_pos (by omega : 256 ≤ a + b)]⟩
    · rintro ⟨hveq, hceq⟩
      by_cases h : 256 ≤ a + b
      · have hab : a + b = v + 256 := by omega
        have hvf : (a : F) + b - v = 256 := by
          have hcast : ((a + b : Nat) : F) = ((v + 256 : Nat) : F) := by rw [hab]
          push_cast at hcast
          linear_combination hcast
        rw [if_pos h] at hceq
        refine ⟨?_, ?_, ?_, ?_⟩ <;> simp only [hceq, hvf] <;> norm_num
      · have hvab : v = a + b := by omega
        have hvf : (a : F) + b - v = 0 := by
          have hcast : ((v : Nat) : F) = ((a + b : Nat) : F) := by rw [hvab]
          push_cast at hcast
          linear_combination -hcast
        rw [if_neg h] at hceq
        refine ⟨?_, ?_, ?_, ?_⟩ <;> simp only [hceq, hvf] <;> norm_num
  · have hiff : (255 < a + b) ↔ (256 ≤ a + b) := by omega
    simp [addOperationPopulate, hiff]

/-- Witness for C9 at the carrying instance `a = 200`, `b = 100`,
`value = 44`, `carry = 1`. -/
theorem c9_add_operation_exact_witness :
    (200 : Nat) < 256 ∧
    ((addOperationConstraints ((200 : Nat) : F) ((100 : Nat) : F) ((44 : Nat) : F) 1 ↔
        ((44 : Nat) = (200 + 100) % 256 ∧ (1 : F) = if 256 ≤ 200 + 100 then 1 else 0)) ∧
      addOperationPopulate 0 200 100 =
        ((((200 + 100) % 256 : Nat) : F), if 256 ≤ 200 + 100 then (1 : F) else 0)) :=
  ⟨by decide,
    c9_add_operation_exact 200 100 44 1 (by decide) (by decide) (by decide)⟩

theorem depth_zero (l : List Instruction) : depth l 0 = 0 := rfl

theorem depth_append (l l2 : List Instruction) (k : Nat) (h : k ≤ l.length) :
    depth (l ++ l2) k = depth l k := by
  unfold depth
  rw [List.take_append_of_le_length h]

theorem depth_succ (l : List Instruction) (k : Nat) (x : Instruction) (h : l[k]? = some x) :
    depth l (k + 1) = depth l k + opcVal x := by
  unfold depth
  rw [List.take_succ, h]
  simp

theorem depth_snoc_last (l : List Instruction) (x : Instruction) :
    depth (l ++ [x]) (l.length + 1) = depth l l.length + opcVal x := by
  have h : (l ++ [x])[l.length]? = some x := by
    rw [List.getElem?_append]
    simp
  rw [depth_succ _ _ _ h, depth_append _ _ _ (le_refl _)]

theorem set_getElem?_self {α : Type} (l : List α) (i : Nat) (a : α)
    (h : l[i]? = some a) : l.set i a = l := by
  induction l generalizing i with
  | nil => simp at h
  | cons x xs ih =>
    cases i with
    | zero => simp at h; simp [h]
    | succ n =>
      simp only [List.getElem?_cons_succ] at h
      simp [List.set_cons_succ, ih n h]

theorem depth_set (l : List Instruction) (s : Nat) (old y : Instruction)
    (hold : l[s]? = some old) (hopc : y.opcode = old.opcode) (k : Nat) :
    depth (l.set s y) k = depth l k := by
  unfold depth
  have hmap : (l.set s y).map opcVal = l.map opcVal := by
    rw [List.map_set]
    have hv : opcVal y = opcVal old := by unfold opcVal; rw [hopc]
    rw [hv]
    apply set_getElem?_self
    rw [List.getElem?_map, hold]
    rfl
  rw [List.map_take, List.map_take, hmap]

theorem isMatch_append (l l2 : List Instruction) (i j : Nat) (h : isMatch l i j) :
    isMatch (l ++ l2) i j := by
  obtain ⟨hij, hjl, ⟨ai, hai, hao⟩, ⟨bj, hbj, hbo⟩, hd, hs⟩ := h
  have hil : i < l.length := lt_trans hij hjl
  refine ⟨hij, by simp; omega, ⟨ai, ?_, hao⟩, ⟨bj, ?_, hbo⟩, ?_, ?_⟩
  · rw [List.getElem?_append, if_pos hil]; exact hai
  · rw [List.getElem?_append, if_pos hjl]; exact hbj
  · rw [depth_append _ _ _ (by omega), depth_append _ _ _ (by omega)]
    exact hd
  · intro k hk1 hk2
    rw [depth_append _ _ _ (by omega), depth_append _ _ _ (by omega)]
    exact hs k hk1 hk2

theorem isMatch_set (l : List Instruction) (s : Nat) (old y : Instruction)
    (hold : l[s]? = some old) (hopc : y.opcode = old.opcode) (i j : Nat)
    (h : isMatch l i j) : isMatch (l.set s y) i j := by
  obtain ⟨hij, hjl, ⟨ai, hai, hao⟩, ⟨bj, hbj, hbo⟩, hd, hs⟩ := h
  have hlen : (l.set s y).length = l.length := List.length_set ..
  refine ⟨hij, by omega, ?_, ?_, ?_, ?_⟩
  · by_cases hsi : s = i
    · subst hsi
      refine ⟨y, ?_, ?_⟩
      · rw [List.getElem?_set, if_pos rfl, if_pos (by omega)]
      · rw [hopc]
        rw [hold] at hai
        injection hai with hai
        rw [hai]
        exact hao
    · exact ⟨ai, by rw [List.getElem?_set, if_neg hsi]; exact hai, hao⟩
  · by_cases hsj : s = j
    · subst hsj
      refine ⟨y, ?_, ?_⟩
      · rw [List.getElem?_set, if_pos rfl, if_pos (by omega)]
      · rw [hopc]
        rw [hold] at hbj
        injection hbj with hbj
        rw [hbj]
        exact hbo
    · exact ⟨bj, by rw [List.getElem?_set, if_neg hsj]; exact hbj, hbo⟩
  · rw [depth_set _ _ _ _ hold hopc, depth_set _ _ _ _ hold hopc]
    exact hd
  · intro k hk1 hk2
    rw [depth_set _ _ _ _ hold hopc, depth_set _ _ _ _ hold hopc]
    exact hs k hk1 hk2

theorem isMatch_right_unique (l : List Instruction) (i j j' : Nat)
    (h1 : isMatch l i j) (h2 : isMatch l i j') : j = j' := by
  by_contra hne
  rcases Nat.lt_or_ge j j' with hlt | hge
  · obtain ⟨_, _, _, _, hd1, _⟩ := h1
    obtain ⟨hij', _, _, _, _, hs2⟩ := h2
    have := hs2 (j + 1) (by omega) (by omega)
    omega
  · have hlt : j' < j := by omega
    obtain ⟨_, _, _, _, hd2, _⟩ := h2
    obtain ⟨hij, _, _, _, _, hs1⟩ := h1
    have := hs1 (j' + 1) (by omega) (by omega)
    omega

theorem isMatch_left_unique (l : List Instruction) (i i' j : Nat)
    (h1 : isMatch l i j) (h2 : isMatch l i' j) : i = i' := by
  by_contra hne
  rcases Nat.lt_or_ge i i' with hlt | hge
  · obtain ⟨_, _, _, _, hd1, hs1⟩ := h1
    obtain ⟨hij', _, _, _, hd2, _⟩ := h2
    have := hs1 i' (by omega) (by omega)
    omega
  · have hlt : i' < i := by omega
    obtain ⟨hij, _, _, _, hd1, _⟩ := h1
    obtain ⟨_, _, _, _, hd2, hs2⟩ := h2
    have := hs2 i (by omega) (by omega)
    omega

theorem getElem?_snoc {α : Type} (l : List α) (x : α) (i : Nat) :
    (l ++ [x])[i]? = if i < l.length then l[i]? else if i = l.length then some x else none := by
  by_cases h : i < l.length
  · rw [List.getElem?_append, if_pos h, if_pos h]
  · rw [List.getElem?_append, if_neg h, if_neg h]
    by_cases h2 : i = l.length
    · rw [if_pos h2, h2]
      simp
    · rw [if_neg h2]
      have : 1 ≤ i - l.length := by omega
      rcases Nat.exists_eq_add_of_le this with ⟨n, hn⟩
      rw [hn]
      simp

theorem parseInv_nil : ParseInv [] [] := by
  constructor <;> simp [depth]

theorem parseInv_push_simple (acc : List Instruction) (st : List Nat) (x : Instruction)
    (inv : ParseInv acc st) (hv : opcVal x = 0)
    (hns : x.opcode ≠ .loopStart) (hne : x.opcode ≠ .loopEnd) :
    ParseInv (acc ++ [x]) st := by
  constructor
  · exact inv.sorted
  · intro s hs
    have := inv.mem_lt s hs
    simp
    omega
  · intro s hs
    rw [getElem?_snoc, if_pos (inv.mem_lt s hs)]
    exact inv.mem_open s hs
  · have hlen : (acc ++ [x]).length = acc.length + 1 := by simp
    rw [hlen, depth_snoc_last, hv, add_zero, inv.total]
  · intro idx s hidx
    have hmem : s ∈ st := List.getElem?_mem hidx
    rw [depth_append _ _ _ (le_of_lt (inv.mem_lt s hmem))]
    exact inv.stack_depth idx s hidx
  · intro idx s hidx k hk1 hk2
    simp only [List.length_append, List.length_cons, List.length_nil] at hk2
    by_cases hk : k ≤ acc.length
    · rw [depth_append _ _ _ hk]
      exact inv.stack_above idx s hidx k hk1 hk
    · have hkk : k = acc.length + 1 := by omega
      rw [hkk, depth_snoc_last, hv, add_zero, inv.total]
      have : (idx : Int) ≥ 0 := by positivity
      omega
  · intro i ins hi hins hnotin
    rw [getElem?_snoc] at hi
    by_cases hil : i < acc.length
    · rw [if_pos hil] at hi
      obtain ⟨j, hm, ho⟩ := inv.starts i ins hi hins hnotin
      exact ⟨j, isMatch_append _ _ _ _ hm, ho⟩
    · rw [if_neg hil] at hi
      by_cases hieq : i = acc.length
      · rw [if_pos hieq] at hi
        injection hi with hi
        rw [hi] at hns
        exact absurd hins hns
      · rw [if_neg hieq] at hi
        exact absurd hi (by simp)
  · intro j ins hj hins
    rw [getElem?_snoc] at hj
    by_cases hjl : j < acc.length
    · rw [if_pos hjl] at hj
      obtain ⟨i, hm, ho⟩ := inv.ends j ins hj hins
      exact ⟨i, isMatch_append _ _ _ _ hm, ho⟩
    · rw [if_neg hjl] at hj
      by_cases hjeq : j = acc.length
      · rw [if_pos hjeq] at hj
        injection hj with hj
        rw [hj] at hne
        exact absurd hins hne
      · rw [if_neg hjeq] at hj
        exact absurd hj (by simp)

theorem parseInv_push_open (acc : List Instruction) (st : List Nat)
    (inv : ParseInv acc st) :
    ParseInv (acc ++ [(⟨.loopStart, 0⟩ : Instruction)]) (acc.length :: st) := by
  have hov : opcVal ⟨.loopStart, 0⟩ = 1 := rfl
  constructor
  · rw [List.chain'_cons']
    refine ⟨fun b hb => inv.mem_lt b (List.mem_of_mem_head? hb), inv.sorted⟩
  · intro s hs
    simp only [List.length_append, List.length_cons, List.length_nil]
    rcases List.mem_cons.mp hs with h | h
    · omega
    · have := inv.mem_lt s h
      omega
  · intro s hs
    rcases List.mem_cons.mp hs with h | h
    · rw [h, getElem?_snoc, if_neg (by omega), if_pos rfl]
    · rw [getElem?_snoc, if_pos (inv.mem_lt s h)]
      exact inv.mem_open s h
  · have hlen : (acc ++ [(⟨.loopStart, 0⟩ : Instruction)]).length = acc.length + 1 := by simp
    rw [hlen, depth_snoc_last, hov, inv.total]
    simp
  · intro idx s hidx
    cases idx with
    | zero =>
      simp only [List.getElem?_cons_zero] at hidx
      injection hidx with hidx
      rw [← hidx, depth_append _ _ _ (le_refl _), inv.total]
      simp
    | succ n =>
      simp only [List.getElem?_cons_succ] at hidx
      have hmem : s ∈ st := List.getElem?_mem hidx
      rw [depth_append _ _ _ (le_of_lt (inv.mem_lt s hmem))]
      rw [inv.stack_depth n s hidx]
      simp only [List.length_cons]
      push_cast
      ring
  · intro idx s hidx k hk1 hk2
    simp only [List.length_append, List.length_cons, List.length_nil] at hk2
    cases idx with
    | zero =>
      simp only [List.getElem?_cons_zero] at hidx
      injection hidx with hidx
      have hk : k = acc.length + 1 := by omega
      rw [hk, depth_snoc_last, hov, inv.total]
      simp only [List.length_cons]
      push_cast
      omega
    | succ n =>
      simp only [List.getElem?_cons_succ] at hidx
      by_cases hk : k ≤ acc.length
      · rw [depth_append _ _ _ hk]
        have := inv.stack_above n s hidx k hk1 hk
        simp only [List.length_cons]
        push_cast
        push_cast at this
        omega
      · have hkk : k = acc.length + 1 := by omega
        rw [hkk, depth_snoc_last, hov, inv.total]
        simp only [List.length_cons]
        push_cast
        omega
  · intro i ins hi hins hnotin
    rw [getElem?_snoc] at hi
    have hine : i ≠ acc.length := fun h => hnotin (by rw [h]; exact List.mem_cons_self _ _)
    by_cases hil : i < acc.length
    · rw [if_pos hil] at hi
      have hnotin2 : i ∉ st := fun h => hnotin (List.mem_cons_of_mem _ h)
      obtain ⟨j, hm, ho⟩ := inv.starts i ins hi hins hnotin2
      exact ⟨j, isMatch_append _ _ _ _ hm, ho⟩
    · rw [if_neg hil, if_neg hine] at hi
      exact absurd hi (by simp)
  · intro j ins hj hins
    rw [getElem?_snoc] at hj
    by_cases hjl : j < acc.length
    · rw [if_pos hjl] at hj
      obtain ⟨i, hm, ho⟩ := inv.ends j ins hj hins
      exact ⟨i, isMatch_append _ _ _ _ hm, ho⟩
    · rw [if_neg hjl] at hj
      by_cases hjeq : j = acc.length
      · rw [if_pos hjeq] at hj
        injection hj with hj
        rw [← hj] at hins
        simp at hins
      · rw [if_neg hjeq] at hj
        exact absurd hj (by simp)



theorem parseInv_close (acc : List Instruction) (s : Nat) (rest : List Nat)
    (inv : ParseInv acc (s :: rest)) :
    ParseInv ((acc.set s ⟨.loopStart, acc.length⟩) ++ [(⟨.loopEnd, s + 1⟩ : Instruction)])
      rest := by
  have hs_open : acc[s]? = some ⟨.loopStart, 0⟩ := inv.mem_open s (List.mem_cons_self _ _)
  have hs_lt : s < acc.length := inv.mem_lt s (List.mem_cons_self _ _)
  have hdp : ∀ k, depth (acc.set s ⟨.loopStart, acc.length⟩) k = depth acc k :=
    depth_set acc s _ _ hs_open rfl
  have hplen : (acc.set s (⟨.loopStart, acc.length⟩ : Instruction)).length = acc.length :=
    List.length_set ..
  have hove : opcVal ⟨.loopEnd, s + 1⟩ = -1 := rfl
  have h_total : depth acc acc.length = (rest.length : Int) + 1 := by
    have := inv.total
    simp only [List.length_cons] at this
    push_cast at this
    omega
  have h_sd0 : depth acc s = (rest.length : Int) := by
    have := inv.stack_depth 0 s (by simp)
    simp only [List.length_cons] at this
    push_cast at this
    omega
  have h_sa0 : ∀ k, s < k → k ≤ acc.length → ((rest.length : Int) + 1) ≤ depth acc k := by
    intro k hk1 hk2
    have := inv.stack_above 0 s (by simp) k hk1 hk2
    simp only [List.length_cons] at this
    push_cast at this
    omega
  have hrs : ∀ r ∈ rest, r < s := by
    have hp := (List.chain'_iff_pairwise.mp inv.sorted)
    exact fun r hr => List.rel_of_pairwise_cons hp hr
  have hdepth_snoc : ∀ k, k ≤ acc.length →
      depth ((acc.set s ⟨.loopStart, acc.length⟩) ++ [(⟨.loopEnd, s + 1⟩ : Instruction)]) k =
        depth acc k := by
    intro k hk
    rw [depth_append _ _ _ (by rw [hplen]; exact hk), hdp]
  have hdepth_last :
      depth ((acc.set s ⟨.loopStart, acc.length⟩) ++ [(⟨.loopEnd, s + 1⟩ : Instruction)])
        (acc.length + 1) = (rest.length : Int) := by
    have h1 := depth_snoc_last (acc.set s ⟨.loopStart, acc.length⟩) ⟨.loopEnd, s + 1⟩
    rw [hplen] at h1
    rw [h1, hdp, hove, h_total]
    ring
  have hmatch : isMatch
      ((acc.set s ⟨.loopStart, acc.length⟩) ++ [(⟨.loopEnd, s + 1⟩ : Instruction)])
      s acc.length := by
    refine ⟨hs_lt, by simp [hplen], ?_, ?_, ?_, ?_⟩
    · refine ⟨⟨.loopStart, acc.length⟩, ?_, rfl⟩
      rw [getElem?_snoc, if_pos (by rw [hplen]; exact hs_lt)]
      rw [List.getElem?_set, if_pos rfl, if_pos hs_lt]
    · refine ⟨⟨.loopEnd, s + 1⟩, ?_, rfl⟩
      rw [getElem?_snoc, if_neg (by rw [hplen]; omega), if_pos hplen.symm]
    · rw [hdepth_last, hdepth_snoc s (le_of_lt hs_lt), h_sd0]
    · intro k hk1 hk2
      rw [hdepth_snoc s (le_of_lt hs_lt), h_sd0]
      by_cases hk : k ≤ acc.length
      · rw [hdepth_snoc k hk]
        have := h_sa0 k hk1 hk
        omega
      · have hkk : k = acc.length + 1 := by omega
        rw [hkk, hdepth_last]
        omega
  constructor
  · exact (List.chain'_cons'.mp inv.sorted).2
  · intro r hr
    have := inv.mem_lt r (List.mem_cons_of_mem _ hr)
    simp only [List.length_append, hplen, List.length_cons, List.length_nil]
    omega
  · intro r hr
    have hrlt : r < acc.length := inv.mem_lt r (List.mem_cons_of_mem _ hr)
    rw [getElem?_snoc, if_pos (by rw [hplen]; exact hrlt)]
    rw [List.getElem?_set, if_neg (by have := hrs r hr; omega)]
    exact inv.mem_open r (List.mem_cons_of_mem _ hr)
  · have hlen2 : ((acc.set s ⟨.loopStart, acc.length⟩) ++
        [(⟨.loopEnd, s + 1⟩ : Instruction)]).length = acc.length + 1 := by
      simp [hplen]
    rw [hlen2, hdepth_last]
  · intro idx r hidx
    have hidx2 : (s :: rest)[idx + 1]? = some r := by
      simp only [List.getElem?_cons_succ]
      exact hidx
    have := inv.stack_depth (idx + 1) r hidx2
    simp only [List.length_cons] at this
    have hmem : r ∈ rest := List.getElem?_mem hidx
    have hrlt : r < acc.length := inv.mem_lt r (List.mem_cons_of_mem _ hmem)
    rw [hdepth_snoc r (le_of_lt hrlt), this]
    push_cast
    ring
  · intro idx r hidx k hk1 hk2
    have hidx2 : (s :: rest)[idx + 1]? = some r := by
      simp only [List.getElem?_cons_succ]
      exact hidx
    simp only [List.length_append, hplen, List.length_cons, List.length_nil] at hk2
    by_cases hk : k ≤ acc.length
    · rw [hdepth_snoc k hk]
      have := inv.stack_above (idx + 1) r hidx2 k hk1 hk
      simp only [List.length_cons] at this
      push_cast at this
      omega
    · have hkk : k = acc.length + 1 := by omega
      rw [hkk, hdepth_last]
      omega
  · intro i ins hi hins hnotin
    rw [getElem?_snoc] at hi
    by_cases hil : i < acc.length
    · rw [if_pos (by rw [hplen]; exact hil)] at hi
      rw [List.getElem?_set] at hi
      by_cases hsi : s = i
      · rw [if_pos hsi, if_pos (by omega)] at hi
        injection hi with hi
        refine ⟨acc.length, ?_, ?_⟩
        · rw [← hsi]
          exact hmatch
        · rw [← hi]
      · rw [if_neg hsi] at hi
        have hnotin2 : i ∉ (s :: rest) := by
          intro hmem
          rcases List.mem_cons.mp hmem with h | h
          · exact hsi h.symm
          · exact hnotin h
        obtain ⟨j, hm, ho⟩ := inv.starts i ins hi hins hnotin2
        exact ⟨j, isMatch_append _ _ _ _ (isMatch_set acc s ⟨.loopStart, 0⟩ ⟨.loopStart, acc.length⟩ hs_open rfl _ _ hm), ho⟩
    · rw [if_neg (by rw [hplen]; exact hil)] at hi
      by_cases hieq : i = acc.length
      · rw [if_pos (by rw [hplen]; exact hieq)] at hi
        injection hi with hi
        rw [← hi] at hins
        simp at hins
      · rw [if_neg (by rw [hplen]; exact hieq)] at hi
        exact absurd hi (by simp)
  · intro j ins hj hins
    rw [getElem?_snoc] at hj
    by_cases hjl : j < acc.length
    · rw [if_pos (by rw [hplen]; exact hjl)] at hj
      rw [List.getElem?_set] at hj
      by_cases hsj : s = j
      · rw [if_pos hsj, if_pos (by omega)] at hj
        injection hj with hj
        rw [← hj] at hins
        simp at hins
      · rw [if_neg hsj] at hj
        obtain ⟨i, hm, ho⟩ := inv.ends j ins hj hins
        exact ⟨i, isMatch_append _ _ _ _ (isMatch_set acc s ⟨.loopStart, 0⟩ ⟨.loopStart, acc.length⟩ hs_open rfl _ _ hm), ho⟩
    · rw [if_neg (by rw [hplen]; exact hjl)] at hj
      by_cases hjeq : j = acc.length
      · rw [if_pos (by rw [hplen]; exact hjeq)] at hj
        injection hj with hj
        refine ⟨s, ?_, ?_⟩
        · rw [hjeq]
          exact hmatch
        · rw [← hj]
      · rw [if_neg (by rw [hplen]; exact hjeq)] at hj
        exact absurd hj (by simp)


theorem decode_from_none_simple (c : Char) (ins : Instruction)
    (h : decode_from c none = .ok ins) :
    opcVal ins = 0 ∧ ins.opcode ≠ .loopStart ∧ ins.opcode ≠ .loopEnd := by
  unfold decode_from at h
  split_ifs at h <;>
    first
      | (injection h with h; rw [← h]; exact ⟨rfl, by decide, by decide⟩)
      | simp at h

theorem parseAux_inv (cs : List Char) (acc : List Instruction) (st : List Nat)
    (acc2 : List Instruction) (st2 : List Nat) (inv : ParseInv acc st)
    (h : parseAux cs acc st = .ok (acc2, st2)) : ParseInv acc2 st2 := by
  induction cs generalizing acc st with
  | nil =>
    simp only [parseAux, Except.ok.injEq, Prod.mk.injEq] at h
    obtain ⟨rfl, rfl⟩ := h
    exact inv
  | cons c cs ih =>
    simp only [parseAux] at h
    by_cases h1 : c = '['
    · subst h1
      rw [if_pos rfl] at h
      have hd : decode_from '[' (some 0) = .ok ⟨.loopStart, 0⟩ := rfl
      simp only [hd] at h
      have hlen : ((acc ++ [(⟨.loopStart, 0⟩ : Instruction)]).length - 1) = acc.length := by
        simp
      rw [hlen] at h
      exact ih _ _ (parseInv_push_open acc st inv) h
    · rw [if_neg h1] at h
      by_cases h2 : c = ']'
      · subst h2
        rw [if_pos rfl] at h
        cases st with
        | nil => simp at h
        | cons s rest =>
          have hs_open := inv.mem_open s (List.mem_cons_self _ _)
          simp only [hs_open] at h
          have hd : decode_from ']' (some (s + 1)) = .ok ⟨.loopEnd, s + 1⟩ := rfl
          simp only [hd] at h
          exact ih _ _ (parseInv_close acc s rest inv) h
      · rw [if_neg h2] at h
        by_cases h3 : c ≠ ' ' ∧ c ≠ '\n' ∧ c ≠ '\r'
        · rw [if_pos h3] at h
          cases hd : decode_from c none with
          | error p =>
            simp only [hd] at h
            simp at h
          | ok ins =>
            simp only [hd] at h
            obtain ⟨hv, hns, hne⟩ := decode_from_none_simple c ins hd
            exact ih _ _ (parseInv_push_simple acc st ins inv hv hns hne) h
        · rw [if_neg h3] at h
          exact ih _ _ inv h


/-- Claim C2 (amended): for a source whose parse succeeds with an empty
bracket stack (balanced brackets, valid characters) and fewer than `2^32`
instructions — the domain on which `parseAux` is exact, since
`Program::from` stores `op_a` through an `as u32` cast — every matching
pair `[` at instruction index `i` / `]` at instruction index `j`
satisfies: the `[` carries `op_a = j` — the index *of* the matching `]`
(not one past it) — and the `]` carries `op_a = i + 1`, the index one
past the matching `[`. -/
theorem c2_loop_targets (code : List Char) (insts : List Instruction)
    (hp : parseAux code [] [] = .ok (insts, []))
    (hlen : insts.length < u32Mod) (i j : Nat) (hm : isMatch insts i j) :
    (∃ a, insts[i]? = some a ∧ a.op_a = j) ∧ (∃ b, insts[j]? = some b ∧ b.op_a = i + 1) := by
  have inv := parseAux_inv code [] [] insts [] parseInv_nil hp
  obtain ⟨hij, hjl, ⟨a, hai, hao⟩, ⟨b, hbj, hbo⟩, -, -⟩ := id hm
  obtain ⟨j2, hm2, ho2⟩ := inv.starts i a hai hao (by simp)
  obtain ⟨i3, hm3, ho3⟩ := inv.ends j b hbj hbo
  have hj2 : j2 = j := isMatch_right_unique insts i j2 j hm2 hm
  have hi3 : i = i3 := isMatch_left_unique insts i i3 j hm hm3
  exact ⟨⟨a, hai, by rw [ho2, hj2]⟩, ⟨b, hbj, by rw [ho3, ← hi3]⟩⟩

theorem parse_op_a_bounds (code : List Char) (insts : List Instruction)
    (hp : parseAux code [] [] = .ok (insts, [])) :
    ∀ (i : Nat) (ins : Instruction), insts[i]? = some ins → ins.is_jump_instruction = true →
      ins.op_a < insts.length := by
  have inv := parseAux_inv code [] [] insts [] parseInv_nil hp
  intro i ins hi hjmp
  cases hop : ins.opcode with
  | loopStart =>
    obtain ⟨j, hm, ho⟩ := inv.starts i ins hi hop (by simp)
    rw [ho]
    exact hm.2.1
  | loopEnd =>
    obtain ⟨i2, hm, ho⟩ := inv.ends i ins hi hop
    rw [ho]
    have h1 := hm.1
    have h2 := hm.2.1
    omega
  | add => simp [Instruction.is_jump_instruction, hop] at hjmp
  | sub => simp [Instruction.is_jump_instruction, hop] at hjmp
  | memStepForward => simp [Instruction.is_jump_instruction, hop] at hjmp
  | memStepBackward => simp [Instruction.is_jump_instruction, hop] at hjmp
  | input => simp [Instruction.is_jump_instruction, hop] at hjmp
  | output => simp [Instruction.is_jump_instruction, hop] at hjmp

/-- Witness for C2 (amended) on the source `[]` at the pair `(0, 1)`. -/
theorem c2_loop_targets_witness :
    (parseAux "[]".data [] [] = .ok (wProgB, [])) ∧ wProgB.length < u32Mod ∧
    ((∃ a, wProgB[0]? = some a ∧ a.op_a = 1) ∧
      (∃ b, wProgB[1]? = some b ∧ b.op_a = 0 + 1)) :=
  ⟨rfl, by decide, c2_loop_targets "[]".data wProgB rfl (by decide) 0 1
    ⟨by decide, by decide, ⟨⟨.loopStart, 1⟩, rfl, rfl⟩, ⟨⟨.loopEnd, 1⟩, rfl, rfl⟩,
      by decide, fun k h1 h2 => by
        have hk : k = 1 := Nat.le_antisymm h2 h1
        subst hk
        decide⟩⟩

theorem post_dispatch_pc (e1 : Executor) (np : Nat) (i : Instruction)
    (jd mp nv v : Nat) : (post_dispatch e1 np i jd mp nv v).state.pc = np := rfl

theorem exi_memF (e : Executor) (opa : Nat) :
    execute_instruction e ⟨.memStepForward, opa⟩ =
      .ok (post_dispatch (execute_memory e ⟨.memStepForward, opa⟩)
        ((e.state.pc + 1) % u32Mod) ⟨.memStepForward, opa⟩ 0 e.state.mem_ptr 0 0) := rfl

theorem exi_memB (e : Executor) (opa : Nat) :
    execute_instruction e ⟨.memStepBackward, opa⟩ =
      .ok (post_dispatch (execute_memory e ⟨.memStepBackward, opa⟩)
        ((e.state.pc + 1) % u32Mod) ⟨.memStepBackward, opa⟩ 0 e.state.mem_ptr 0 0) := rfl

theorem exi_add (e : Executor) (opa : Nat) :
    execute_instruction e ⟨.add, opa⟩ =
      .ok (post_dispatch (execute_alu e ⟨.add, opa⟩).2 ((e.state.pc + 1) % u32Mod)
        ⟨.add, opa⟩ 0 e.state.mem_ptr (execute_alu e ⟨.add, opa⟩).1.1
        (execute_alu e ⟨.add, opa⟩).1.2) := rfl

theorem exi_sub (e : Executor) (opa : Nat) :
    execute_instruction e ⟨.sub, opa⟩ =
      .ok (post_dispatch (execute_alu e ⟨.sub, opa⟩).2 ((e.state.pc + 1) % u32Mod)
        ⟨.sub, opa⟩ 0 e.state.mem_ptr (execute_alu e ⟨.sub, opa⟩).1.1
        (execute_alu e ⟨.sub, opa⟩).1.2) := rfl

theorem exi_loopStart (e : Executor) (opa : Nat) :
    execute_instruction e ⟨.loopStart, opa⟩ =
      .ok (post_dispatch (execute_jump e ⟨.loopStart, opa⟩).2
        (execute_jump e ⟨.loopStart, opa⟩).1.2 ⟨.loopStart, opa⟩
        (execute_jump e ⟨.loopStart, opa⟩).1.2 e.state.mem_ptr 0
        (execute_jump e ⟨.loopStart, opa⟩).1.1) := rfl

theorem exi_loopEnd (e : Executor) (opa : Nat) :
    execute_instruction e ⟨.loopEnd, opa⟩ =
      .ok (post_dispatch (execute_jump e ⟨.loopEnd, opa⟩).2
        (execute_jump e ⟨.loopEnd, opa⟩).1.2 ⟨.loopEnd, opa⟩
        (execute_jump e ⟨.loopEnd, opa⟩).1.2 e.state.mem_ptr 0
        (execute_jump e ⟨.loopEnd, opa⟩).1.1) := rfl

theorem exi_output (e : Executor) (opa : Nat) :
    execute_instruction e ⟨.output, opa⟩ =
      .ok (post_dispatch
        { (rr_cpu e e.state.mem_ptr ((e.state.clk + 1) % u32Mod)).2 with
            state :=
              { (rr_cpu e e.state.mem_ptr ((e.state.clk + 1) % u32Mod)).2.state with
                  output_stream :=
                    (rr_cpu e e.state.mem_ptr
                        ((e.state.clk + 1) % u32Mod)).2.state.output_stream ++
                      [(rr_cpu e e.state.mem_ptr ((e.state.clk + 1) % u32Mod)).1] } }
        ((e.state.pc + 1) % u32Mod) ⟨.output, opa⟩ 0 e.state.mem_ptr 0
        (rr_cpu e e.state.mem_ptr ((e.state.clk + 1) % u32Mod)).1) := rfl

theorem exi_input_none (e : Executor) (opa : Nat)
    (h : e.state.input_stream[e.state.input_stream_ptr]? = none) :
    execute_instruction e ⟨.input, opa⟩ = .error .inputOOB := by
  simp only [execute_instruction, execute_io_instr, h]

theorem exi_input_some (e : Executor) (opa : Nat) (b : Nat)
    (h : e.state.input_stream[e.state.input_stream_ptr]? = some b) :
    execute_instruction e ⟨.input, opa⟩ =
      .ok (post_dispatch (rw_cpu e e.state.mem_ptr b ((e.state.clk + 1) % u32Mod) false)
        ((e.state.pc + 1) % u32Mod) ⟨.input, opa⟩ 0 e.state.mem_ptr 0 b) := by
  simp only [execute_instruction, execute_io_instr, h]

theorem execute_jump_next_pc_loopStart (e : Executor) (opa : Nat) :
    (execute_jump e ⟨.loopStart, opa⟩).1.2 =
      if ((e.state.memory_access e.state.mem_ptr).getD ⟨0, 0⟩).value = 0 then opa
      else (e.state.pc + 1) % u32Mod := rfl

theorem execute_jump_next_pc_loopEnd (e : Executor) (opa : Nat) :
    (execute_jump e ⟨.loopEnd, opa⟩).1.2 =
      if ¬ ((e.state.memory_access e.state.mem_ptr).getD ⟨0, 0⟩).value = 0 then opa
      else (e.state.pc + 1) % u32Mod := rfl

theorem execute_cycle_eq_of_instr (e : Executor) (ins : Instruction) (e1 : Executor)
    (hf : e.program[e.state.pc]? = some ins) (hi : execute_instruction e ins = .ok e1)
    (hprog : e1.program = e.program) :
    execute_cycle e = .ok (e1.state.pc == e.program.length % u32Mod,
      { e1 with state :=
          { e1.state with global_clk := (e1.state.global_clk + 1) % u64Mod } }) := by
  simp only [execute_cycle, hf, hi, hprog]


theorem execute_cycle_cases (e : Executor) (ins : Instruction)
    (hfetch : e.program[e.state.pc]? = some ins) :
    execute_cycle e = .error .inputOOB ∨
    ∃ d e1, execute_cycle e = .ok (d, e1) ∧ e1.program = e.program ∧
      (e1.state.pc = (e.state.pc + 1) % u32Mod ∨
        (ins.is_jump_instruction = true ∧ e1.state.pc = ins.op_a)) ∧
      d = (e1.state.pc == e.program.length % u32Mod) := by
  obtain ⟨op, opa⟩ := ins
  cases op
  case memStepForward =>
    right
    rw [execute_cycle_eq_of_instr e _ _ hfetch (exi_memF e opa) rfl]
    exact ⟨_, _, rfl, rfl, Or.inl rfl, rfl⟩
  case memStepBackward =>
    right
    rw [execute_cycle_eq_of_instr e _ _ hfetch (exi_memB e opa) rfl]
    exact ⟨_, _, rfl, rfl, Or.inl rfl, rfl⟩
  case add =>
    right
    rw [execute_cycle_eq_of_instr e _ _ hfetch (exi_add e opa) rfl]
    exact ⟨_, _, rfl, rfl, Or.inl rfl, rfl⟩
  case sub =>
    right
    rw [execute_cycle_eq_of_instr e _ _ hfetch (exi_sub e opa) rfl]
    exact ⟨_, _, rfl, rfl, Or.inl rfl, rfl⟩
  case output =>
    right
    rw [execute_cycle_eq_of_instr e _ _ hfetch (exi_output e opa) rfl]
    exact ⟨_, _, rfl, rfl, Or.inl rfl, rfl⟩
  case loopStart =>
    right
    rw [execute_cycle_eq_of_instr e _ _ hfetch (exi_loopStart e opa) rfl]
    refine ⟨_, _, rfl, rfl, ?_, rfl⟩
    show (execute_jump e ⟨.loopStart, opa⟩).1.2 = (e.state.pc + 1) % u32Mod ∨ _
    rw [execute_jump_next_pc_loopStart]
    by_cases hmv : ((e.state.memory_access e.state.mem_ptr).getD ⟨0, 0⟩).value = 0
    · right
      rw [if_pos hmv]
      exact ⟨rfl, rfl⟩
    · left
      rw [if_neg hmv]
  case loopEnd =>
    right
    rw [execute_cycle_eq_of_instr e _ _ hfetch (exi_loopEnd e opa) rfl]
    refine ⟨_, _, rfl, rfl, ?_, rfl⟩
    show (execute_jump e ⟨.loopEnd, opa⟩).1.2 = (e.state.pc + 1) % u32Mod ∨ _
    rw [execute_jump_next_pc_loopEnd]
    by_cases hmv : ((e.state.memory_access e.state.mem_ptr).getD ⟨0, 0⟩).value = 0
    · left
      rw [if_neg (by simp [hmv])]
    · right
      rw [if_pos hmv]
      exact ⟨rfl, rfl⟩
  case input =>
    cases hinp : e.state.input_stream[e.state.input_stream_ptr]? with
    | none =>
      left
      simp only [execute_cycle, hfetch, exi_input_none e opa hinp]
    | some b =>
      right
      rw [execute_cycle_eq_of_instr e _ _ hfetch (exi_input_some e opa b hinp) rfl]
      exact ⟨_, _, rfl, rfl, Or.inl rfl, rfl⟩


theorem run_pc_invariant (insts : List Instruction) (hlen : insts.length < u32Mod)
    (hops : ∀ (i : Nat) (ins : Instruction), insts[i]? = some ins →
      ins.is_jump_instruction = true → ins.op_a < insts.length) :
    ∀ (n : Nat) (e : Executor), e.program = insts → e.state.pc < insts.length →
      runFuel n e ≠ .error .fetchOOB ∧
      (∀ e1, runFuel n e = .ok (some e1) → e1.state.pc = insts.length) := by
  intro n
  induction n with
  | zero =>
    intro e hprog hpc
    constructor
    · simp [runFuel]
    · intro e1 h
      simp [runFuel] at h
  | succ n ih =>
    intro e hprog hpc
    have hfetch : ∃ ins, e.program[e.state.pc]? = some ins := by
      rw [hprog]
      exact ⟨_, List.getElem?_eq_getElem hpc⟩
    obtain ⟨ins, hf⟩ := hfetch
    rcases execute_cycle_cases e ins hf with herr | ⟨d, e1, hok, hprog1, hpc1, hd⟩
    · constructor
      · simp [runFuel, herr]
      · intro e1 h
        simp [runFuel, herr] at h
    · have hpcle : e1.state.pc ≤ insts.length := by
        rcases hpc1 with h | ⟨hj, h⟩
        · rw [h, Nat.mod_eq_of_lt (by omega)]
          omega
        · rw [h]
          have := hops e.state.pc ins (by rw [← hprog]; exact hf) hj
          omega
      by_cases hdone : e1.state.pc = insts.length
      · have hdt : d = true := by
          simp [hd, hprog, Nat.mod_eq_of_lt hlen, hdone]
        constructor
        · simp [runFuel, hok, hdt]
        · intro e2 h
          simp only [runFuel, hok, hdt] at h
          simp only [Except.ok.injEq, Option.some.injEq] at h
          rw [← h]
          exact hdone
      · have hdf : d = false := by
          simp [hd, hprog, Nat.mod_eq_of_lt hlen, hdone]
        have hlt : e1.state.pc < insts.length := by omega
        have hrec := ih e1 (by rw [hprog1, hprog]) hlt
        constructor
        · simp only [runFuel, hok, hdf]
          exact hrec.1
        · intro e2 h
          simp only [runFuel, hok, hdf] at h
          exact hrec.2 e2 h

/-- Claim C8 (amended): for every *nonempty* program parsed from a
balanced source, every bracket instruction's `op_a` is an in-range
program index, no amount of fuel makes the run panic in `Program::fetch`
(the program counter is a valid index at every fetch), and a finished
run ends with `pc = instructions.len()`. -/
theorem c8_pc_in_bounds (code : List Char) (insts : List Instruction) (input : List Nat)
    (hp : parseAux code [] [] = .ok (insts, [])) (hne : insts ≠ [])
    (hlen : insts.length < u32Mod) :
    (∀ (i : Nat) (ins : Instruction), insts[i]? = some ins →
      ins.is_jump_instruction = true → ins.op_a < insts.length) ∧
    ∀ n, runFuel n (mkExecutor insts input) ≠ .error .fetchOOB ∧
      (∀ e1, runFuel n (mkExecutor insts input) = .ok (some e1) →
        e1.state.pc = insts.length) := by
  have hops := parse_op_a_bounds code insts hp
  refine ⟨hops, fun n => run_pc_invariant insts hlen hops n (mkExecutor insts input) rfl ?_⟩
  show (0 : Nat) < insts.length
  exact List.length_pos.mpr hne

/-- Witness for C8 (amended) on the program parsed from `[]`. -/
theorem c8_pc_in_bounds_witness :
    (parseAux "[]".data [] [] = .ok (wProgB, []) ∧ wProgB ≠ [] ∧ wProgB.length < u32Mod) ∧
    runFuel 2 wExecB ≠ .error .fetchOOB ∧ wFinalB.state.pc = wProgB.length := by
  refine ⟨⟨rfl, by decide, by decide⟩, ?_, ?_⟩
  · exact ((c8_pc_in_bounds "[]".data wProgB [] rfl (by decide) (by decide)).2 2).1
  · exact ((c8_pc_in_bounds "[]".data wProgB [] rfl (by decide) (by decide)).2 2).2 wFinalB rfl


theorem addrAccesses_append (evs : List CpuEvent) (ev : CpuEvent) (a : Nat) :
    addrAccesses (evs ++ [ev]) a = addrAccesses evs a ++ accessesOf ev a := by
  simp [addrAccesses]

theorem chainEnd_append (m : MemoryRecord) (l1 l2 : List MemoryRecordEnum) :
    chainEnd m (l1 ++ l2) = chainEnd (chainEnd m l1) l2 :=
  List.foldl_append ..

theorem chainOK_append (m : MemoryRecord) (l1 l2 : List MemoryRecordEnum)
    (h1 : chainOK m l1) (h2 : chainOK (chainEnd m l1) l2) : chainOK m (l1 ++ l2) := by
  induction l1 generalizing m with
  | nil => exact h2
  | cons x tail ih =>
    obtain ⟨hx, htail⟩ := h1
    exact ⟨hx, ih (applyAcc m x) htail h2⟩

theorem applyAcc_timestamp (m : MemoryRecord) (acc : MemoryRecordEnum) :
    (applyAcc m acc).timestamp = tsOf acc := by
  cases acc <;> rfl

theorem chainOK_chain_cons (m : MemoryRecord) (l : List MemoryRecordEnum)
    (h : chainOK m l) : List.Chain' (· < ·) (m.timestamp :: l.map tsOf) := by
  induction l generalizing m with
  | nil => simp
  | cons x tail ih =>
    obtain ⟨hx, htail⟩ := h
    have hlt : m.timestamp < tsOf x := by
      cases x with
      | read r => exact hx.2.2
      | write w => exact hx.2.2
    have := ih (applyAcc m x) htail
    rw [applyAcc_timestamp] at this
    simp only [List.map_cons]
    exact List.Chain'.cons hlt this

theorem chainOK_chain (m : MemoryRecord) (l : List MemoryRecordEnum)
    (h : chainOK m l) : List.Chain' (· < ·) (l.map tsOf) :=
  (chainOK_chain_cons m l h).tail

theorem perAddr_mono_clk (rec : Option MemoryRecord) (evA : Option MemoryEvent)
    (ac : List MemoryRecordEnum) (c c2 a : Nat)
    (h : PerAddr rec evA ac c a) (hc : c ≤ c2) : PerAddr rec evA ac c2 a :=
  ⟨h.1, h.2.1, le_trans h.2.2.1 hc, h.2.2.2.1, h.2.2.2.2⟩

theorem perAddr_read (rec : Option MemoryRecord) (evA : Option MemoryEvent)
    (ac : List MemoryRecordEnum) (c a t c2 : Nat)
    (h : PerAddr rec evA ac c a) (ht : c < t) (ht2 : t ≤ c2) (ev2 : MemoryEvent)
    (hev2 : ev2 = (match evA with
      | some old => { old with final_mem_access := ⟨t, (rec.getD ⟨0, 0⟩).value⟩ }
      | none => ⟨a, rec.getD ⟨0, 0⟩, ⟨t, (rec.getD ⟨0, 0⟩).value⟩⟩)) :
    PerAddr (some ⟨t, (rec.getD ⟨0, 0⟩).value⟩) (some ev2)
      (ac ++ [.read ⟨(rec.getD ⟨0, 0⟩).value, t, (rec.getD ⟨0, 0⟩).timestamp⟩]) c2 a := by
  obtain ⟨hchain, hend, hts, hnone, hsome⟩ := h
  have haccOK : accOK (rec.getD ⟨0, 0⟩)
      (.read ⟨(rec.getD ⟨0, 0⟩).value, t, (rec.getD ⟨0, 0⟩).timestamp⟩) :=
    ⟨rfl, rfl, lt_of_le_of_lt hts ht⟩
  refine ⟨?_, ?_, ht2, ?_, ?_⟩
  · apply chainOK_append _ _ _ hchain
    rw [hend]
    exact ⟨haccOK, trivial⟩
  · rw [chainEnd_append, hend]
    rfl
  · intro hcontra
    exact absurd hcontra (by simp)
  · intro r hr
    injection hr with hr
    refine ⟨by simp, ev2, rfl, ?_, ?_, ?_⟩
    · cases hrec : rec with
      | none =>
        obtain ⟨-, hevn⟩ := hnone hrec
        subst hevn
        rw [hev2]
      | some r0 =>
        obtain ⟨-, ev0, hev0, haddr0, hinit0, hfin0⟩ := hsome r0 hrec
        subst hev0
        rw [hev2]
        exact haddr0
    · cases hrec : rec with
      | none =>
        obtain ⟨-, hevn⟩ := hnone hrec
        subst hevn
        rw [hev2]
        show rec.getD ⟨0, 0⟩ = ⟨0, 0⟩
        rw [hrec]
        rfl
      | some r0 =>
        obtain ⟨-, ev0, hev0, haddr0, hinit0, hfin0⟩ := hsome r0 hrec
        subst hev0
        rw [hev2]
        exact hinit0
    · cases hrec : rec with
      | none =>
        obtain ⟨-, hevn⟩ := hnone hrec
        subst hevn
        rw [hev2, ← hr]
      | some r0 =>
        obtain ⟨-, ev0, hev0, haddr0, hinit0, hfin0⟩ := hsome r0 hrec
        subst hev0
        rw [hev2, ← hr]

theorem perAddr_write (rec : Option MemoryRecord) (evA : Option MemoryEvent)
    (ac : List MemoryRecordEnum) (c a v t c2 : Nat)
    (h : PerAddr rec evA ac c a) (ht : c < t) (ht2 : t ≤ c2) (ev2 : MemoryEvent)
    (hev2 : ev2 = (match evA with
      | some old => { old with final_mem_access := ⟨t, v⟩ }
      | none => ⟨a, rec.getD ⟨0, 0⟩, ⟨t, v⟩⟩)) :
    PerAddr (some ⟨t, v⟩) (some ev2)
      (ac ++ [.write ⟨v, t, (rec.getD ⟨0, 0⟩).value, (rec.getD ⟨0, 0⟩).timestamp⟩]) c2 a := by
  obtain ⟨hchain, hend, hts, hnone, hsome⟩ := h
  have haccOK : accOK (rec.getD ⟨0, 0⟩)
      (.write ⟨v, t, (rec.getD ⟨0, 0⟩).value, (rec.getD ⟨0, 0⟩).timestamp⟩) :=
    ⟨rfl, rfl, lt_of_le_of_lt hts ht⟩
  refine ⟨?_, ?_, ht2, ?_, ?_⟩
  · apply chainOK_append _ _ _ hchain
    rw [hend]
    exact ⟨haccOK, trivial⟩
  · rw [chainEnd_append, hend]
    rfl
  · intro hcontra
    exact absurd hcontra (by simp)
  · intro r hr
    injection hr with hr
    refine ⟨by simp, ev2, rfl, ?_, ?_, ?_⟩
    · cases hrec : rec with
      | none =>
        obtain ⟨-, hevn⟩ := hnone hrec
        subst hevn
        rw [hev2]
      | some r0 =>
        obtain ⟨-, ev0, hev0, haddr0, hinit0, hfin0⟩ := hsome r0 hrec
        subst hev0
        rw [hev2]
        exact haddr0
    · cases hrec : rec with
      | none =>
        obtain ⟨-, hevn⟩ := hnone hrec
        subst hevn
        rw [hev2]
        show rec.getD ⟨0, 0⟩ = ⟨0, 0⟩
        rw [hrec]
        rfl
      | some r0 =>
        obtain ⟨-, ev0, hev0, haddr0, hinit0, hfin0⟩ := hsome r0 hrec
        subst hev0
        rw [hev2]
        exact hinit0
    · cases hrec : rec with
      | none =>
        obtain ⟨-, hevn⟩ := hnone hrec
        subst hevn
        rw [hev2, ← hr]
      | some r0 =>
        obtain ⟨-, ev0, hev0, haddr0, hinit0, hfin0⟩ := hsome r0 hrec
        subst hev0
        rw [hev2, ← hr]


theorem MemInv_cycle (e : Executor) (ins : Instruction) (d : Bool) (e1 : Executor)
    (hfetch : e.program[e.state.pc]? = some ins)
    (hInv : MemInv e) (hclk : e.state.clk + 2 < u32Mod)
    (hok : execute_cycle e = .ok (d, e1)) :
    MemInv e1 ∧ e1.state.clk = e.state.clk + 2 := by
  obtain ⟨hmv, hnmv, hPA⟩ := hInv
  have hclk1 : (e.state.clk + 1) % u32Mod = e.state.clk + 1 := Nat.mod_eq_of_lt (by omega)
  have hclk2 : (e.state.clk + 2) % u32Mod = e.state.clk + 2 := Nat.mod_eq_of_lt hclk
  obtain ⟨op, opa⟩ := ins
  cases op
  case memStepForward =>
    rw [execute_cycle_eq_of_instr e _ _ hfetch (exi_memF e opa) rfl] at hok
    simp only [Except.ok.injEq, Prod.mk.injEq] at hok
    obtain ⟨hd, he1⟩ := hok
    subst he1
    refine ⟨⟨rfl, rfl, ?_⟩, ?_⟩
    · intro a
      simp only [post_dispatch, emit_events, execute_memory,
        Instruction.is_alu_instruction, Instruction.is_jump_instruction,
        Instruction.is_memory_instruction, Instruction.is_io_instruction,
        Bool.false_eq_true, if_false, if_true, reduceIte]
      rw [addrAccesses_append]
      have hacc : accessesOf
          { clk := e.state.clk, pc := e.state.pc, next_pc := (e.state.pc + 1) % u32Mod,
            mp := e.state.mem_ptr, next_mp := (e.state.mem_ptr + 1) % u32Mod,
            next_mv := 0, mv := 0,
            next_mv_access := e.memory_accesses.next_mv,
            mv_access := e.memory_accesses.mv } a = [] := by
        simp [accessesOf, hmv, hnmv]
      rw [hacc, List.append_nil, hclk2]
      exact perAddr_mono_clk _ _ _ _ _ _ (hPA a) (by omega)
    · simp only [post_dispatch, emit_events, execute_memory]
      exact hclk2
  case memStepBackward =>
    rw [execute_cycle_eq_of_instr e _ _ hfetch (exi_memB e opa) rfl] at hok
    simp only [Except.ok.injEq, Prod.mk.injEq] at hok
    obtain ⟨hd, he1⟩ := hok
    subst he1
    refine ⟨⟨rfl, rfl, ?_⟩, ?_⟩
    · intro a
      simp only [post_dispatch, emit_events, execute_memory,
        Instruction.is_alu_instruction, Instruction.is_jump_instruction,
        Instruction.is_memory_instruction, Instruction.is_io_instruction,
        Bool.false_eq_true, if_false, if_true, reduceIte]
      rw [addrAccesses_append]
      have hacc : accessesOf
          { clk := e.state.clk, pc := e.state.pc, next_pc := (e.state.pc + 1) % u32Mod,
            mp := e.state.mem_ptr, next_mp := (u32Mod - 1 + e.state.mem_ptr) % u32Mod,
            next_mv := 0, mv := 0,
            next_mv_access := e.memory_accesses.next_mv,
            mv_access := e.memory_accesses.mv } a = [] := by
        simp [accessesOf, hmv, hnmv]
      rw [hacc, List.append_nil, hclk2]
      exact perAddr_mono_clk _ _ _ _ _ _ (hPA a) (by omega)
    · simp only [post_dispatch, emit_events, execute_memory]
      exact hclk2
  case loopStart =>
    rw [execute_cycle_eq_of_instr e _ _ hfetch (exi_loopStart e opa) rfl] at hok
    simp only [Except.ok.injEq, Prod.mk.injEq] at hok
    obtain ⟨hd, he1⟩ := hok
    subst he1
    refine ⟨⟨rfl, rfl, ?_⟩, ?_⟩
    · intro a
      by_cases ha : e.state.mem_ptr = a
      · subst ha
        have hPA2 := hPA e.state.mem_ptr
        cases hE : e.memory_events e.state.mem_ptr with
        | none =>
          rw [hE] at hPA2
          simp only [post_dispatch, emit_events, execute_jump, rr_cpu, rr_traced,
            Instruction.is_alu_instruction, Instruction.is_jump_instruction,
            Instruction.is_memory_instruction, Instruction.is_io_instruction,
            Bool.false_eq_true, if_false, if_true, reduceIte, hE, Function.update_same,
            Option.getD_some]
          rw [addrAccesses_append]
          simp only [accessesOf, eq_self_iff_true, if_true, if_pos rfl, hnmv, Option.toList_some, Option.toList_none,
            List.append_nil]
          exact perAddr_read _ _ _ _ _ _ _ hPA2 (by omega) (by omega) _ rfl
        | some old =>
          rw [hE] at hPA2
          simp only [post_dispatch, emit_events, execute_jump, rr_cpu, rr_traced,
            Instruction.is_alu_instruction, Instruction.is_jump_instruction,
            Instruction.is_memory_instruction, Instruction.is_io_instruction,
            Bool.false_eq_true, if_false, if_true, reduceIte, hE, Function.update_same,
            Option.getD_some]
          rw [addrAccesses_append]
          simp only [accessesOf, eq_self_iff_true, if_true, if_pos rfl, hnmv, Option.toList_some, Option.toList_none,
            List.append_nil]
          exact perAddr_read _ _ _ _ _ _ _ hPA2 (by omega) (by omega) _ rfl
      · simp only [post_dispatch, emit_events, execute_jump, rr_cpu, rr_traced,
          Instruction.is_alu_instruction, Instruction.is_jump_instruction,
          Instruction.is_memory_instruction, Instruction.is_io_instruction,
          Bool.false_eq_true, if_false, if_true, reduceIte,
          Function.update_noteq (fun h => ha h.symm)]
        rw [addrAccesses_append]
        simp only [accessesOf, if_neg ha, List.append_nil]
        exact perAddr_mono_clk _ _ _ _ _ _ (hPA a) (by omega)
    · simp only [post_dispatch, emit_events, execute_jump, rr_cpu, rr_traced]
      exact hclk2
  case loopEnd =>
    rw [execute_cycle_eq_of_instr e _ _ hfetch (exi_loopEnd e opa) rfl] at hok
    simp only [Except.ok.injEq, Prod.mk.injEq] at hok
    obtain ⟨hd, he1⟩ := hok
    subst he1
    refine ⟨⟨rfl, rfl, ?_⟩, ?_⟩
    · intro a
      by_cases ha : e.state.mem_ptr = a
      · subst ha
        have hPA2 := hPA e.state.mem_ptr
        cases hE : e.memory_events e.state.mem_ptr with
        | none =>
          rw [hE] at hPA2
          simp only [post_dispatch, emit_events, execute_jump, rr_cpu, rr_traced,
            Instruction.is_alu_instruction, Instruction.is_jump_instruction,
            Instruction.is_memory_instruction, Instruction.is_io_instruction,
            Bool.false_eq_true, if_false, if_true, reduceIte, hE, Function.update_same,
            Option.getD_some]
          rw [addrAccesses_append]
          simp only [accessesOf, eq_self_iff_true, if_true, if_pos rfl, hnmv, Option.toList_some, Option.toList_none,
            List.append_nil]
          exact perAddr_read _ _ _ _ _ _ _ hPA2 (by omega) (by omega) _ rfl
        | some old =>
          rw [hE] at hPA2
          simp only [post_dispatch, emit_events, execute_jump, rr_cpu, rr_traced,
            Instruction.is_alu_instruction, Instruction.is_jump_instruction,
            Instruction.is_memory_instruction, Instruction.is_io_instruction,
            Bool.false_eq_true, if_false, if_true, reduceIte, hE, Function.update_same,
            Option.getD_some]
          rw [addrAccesses_append]
          simp only [accessesOf, eq_self_iff_true, if_true, if_pos rfl, hnmv, Option.toList_some, Option.toList_none,
            List.append_nil]
          exact perAddr_read _ _ _ _ _ _ _ hPA2 (by omega) (by omega) _ rfl
      · simp only [post_dispatch, emit_events, execute_jump, rr_cpu, rr_traced,
          Instruction.is_alu_instruction, Instruction.is_jump_instruction,
          Instruction.is_memory_instruction, Instruction.is_io_instruction,
          Bool.false_eq_true, if_false, if_true, reduceIte,
          Function.update_noteq (fun h => ha h.symm)]
        rw [addrAccesses_append]
        simp only [accessesOf, if_neg ha, List.append_nil]
        exact perAddr_mono_clk _ _ _ _ _ _ (hPA a) (by omega)
    · simp only [post_dispatch, emit_events, execute_jump, rr_cpu, rr_traced]
      exact hclk2
  case output =>
    rw [execute_cycle_eq_of_instr e _ _ hfetch (exi_output e opa) rfl] at hok
    simp only [Except.ok.injEq, Prod.mk.injEq] at hok
    obtain ⟨hd, he1⟩ := hok
    subst he1
    refine ⟨⟨rfl, rfl, ?_⟩, ?_⟩
    · intro a
      by_cases ha : e.state.mem_ptr = a
      · subst ha
        have hPA2 := hPA e.state.mem_ptr
        cases hE : e.memory_events e.state.mem_ptr with
        | none =>
          rw [hE] at hPA2
          simp only [post_dispatch, emit_events, rr_cpu, rr_traced,
            Instruction.is_alu_instruction, Instruction.is_jump_instruction,
            Instruction.is_memory_instruction, Instruction.is_io_instruction,
            Bool.false_eq_true, if_false, if_true, reduceIte, hE, Function.update_same,
            Option.getD_some]
          rw [addrAccesses_append]
          simp only [accessesOf, eq_self_iff_true, if_true, if_pos rfl, hnmv, Option.toList_some, Option.toList_none,
            List.append_nil]
          exact perAddr_read _ _ _ _ _ _ _ hPA2 (by omega) (by omega) _ rfl
        | some old =>
          rw [hE] at hPA2
          simp only [post_dispatch, emit_events, rr_cpu, rr_traced,
            Instruction.is_alu_instruction, Instruction.is_jump_instruction,
            Instruction.is_memory_instruction, Instruction.is_io_instruction,
            Bool.false_eq_true, if_false, if_true, reduceIte, hE, Function.update_same,
            Option.getD_some]
          rw [addrAccesses_append]
          simp only [accessesOf, eq_self_iff_true, if_true, if_pos rfl, hnmv, Option.toList_some, Option.toList_none,
            List.append_nil]
          exact perAddr_read _ _ _ _ _ _ _ hPA2 (by omega) (by omega) _ rfl
      · simp only [post_dispatch, emit_events, rr_cpu, rr_traced,
          Instruction.is_alu_instruction, Instruction.is_jump_instruction,
          Instruction.is_memory_instruction, Instruction.is_io_instruction,
          Bool.false_eq_true, if_false, if_true, reduceIte,
          Function.update_noteq (fun h => ha h.symm)]
        rw [addrAccesses_append]
        simp only [accessesOf, if_neg ha, List.append_nil]
        exact perAddr_mono_clk _ _ _ _ _ _ (hPA a) (by omega)
    · simp only [post_dispatch, emit_events, rr_cpu, rr_traced]
      exact hclk2
  case input =>
    cases hinp : e.state.input_stream[e.state.input_stream_ptr]? with
    | none =>
      simp only [execute_cycle, hfetch, exi_input_none e opa hinp] at hok
      exact Except.noConfusion hok
    | some b =>
      rw [execute_cycle_eq_of_instr e _ _ hfetch (exi_input_some e opa b hinp) rfl] at hok
      simp only [Except.ok.injEq, Prod.mk.injEq] at hok
      obtain ⟨hd, he1⟩ := hok
      subst he1
      refine ⟨⟨rfl, rfl, ?_⟩, ?_⟩
      · intro a
        by_cases ha : e.state.mem_ptr = a
        · subst ha
          have hPA2 := hPA e.state.mem_ptr
          cases hE : e.memory_events e.state.mem_ptr with
          | none =>
            rw [hE] at hPA2
            simp only [post_dispatch, emit_events, rw_cpu, rw_traced,
              Instruction.is_alu_instruction, Instruction.is_jump_instruction,
              Instruction.is_memory_instruction, Instruction.is_io_instruction,
              Bool.false_eq_true, if_false, if_true, reduceIte, hE, Function.update_same,
              Option.getD_some]
            rw [addrAccesses_append]
            simp only [accessesOf, eq_self_iff_true, if_true, if_pos rfl, hnmv, Option.toList_some, Option.toList_none,
              List.append_nil]
            exact perAddr_write _ _ _ _ _ _ _ _ hPA2 (by omega) (by omega) _ rfl
          | some old =>
            rw [hE] at hPA2
            simp only [post_dispatch, emit_events, rw_cpu, rw_traced,
              Instruction.is_alu_instruction, Instruction.is_jump_instruction,
              Instruction.is_memory_instruction, Instruction.is_io_instruction,
              Bool.false_eq_true, if_false, if_true, reduceIte, hE, Function.update_same,
              Option.getD_some]
            rw [addrAccesses_append]
            simp only [accessesOf, eq_self_iff_true, if_true, if_pos rfl, hnmv, Option.toList_some, Option.toList_none,
              List.append_nil]
            exact perAddr_write _ _ _ _ _ _ _ _ hPA2 (by omega) (by omega) _ rfl
        · simp only [post_dispatch, emit_events, rw_cpu, rw_traced,
            Instruction.is_alu_instruction, Instruction.is_jump_instruction,
            Instruction.is_memory_instruction, Instruction.is_io_instruction,
            Bool.false_eq_true, if_false, if_true, reduceIte,
            Function.update_noteq (fun h => ha h.symm)]
          rw [addrAccesses_append]
          simp only [accessesOf, if_neg ha, List.append_nil]
          exact perAddr_mono_clk _ _ _ _ _ _ (hPA a) (by omega)
      · simp only [post_dispatch, emit_events, rw_cpu, rw_traced]
        exact hclk2
  case add =>
    rw [execute_cycle_eq_of_instr e _ _ hfetch (exi_add e opa) rfl] at hok
    simp only [Except.ok.injEq, Prod.mk.injEq] at hok
    obtain ⟨hd, he1⟩ := hok
    subst he1
    refine ⟨⟨rfl, rfl, ?_⟩, ?_⟩
    · intro a
      by_cases ha : e.state.mem_ptr = a
      · subst ha
        have hPA2 := hPA e.state.mem_ptr
        cases hE : e.memory_events e.state.mem_ptr with
        | none =>
          rw [hE] at hPA2
          simp only [post_dispatch, emit_events, execute_alu, rr_cpu, rr_traced, rw_cpu,
            rw_traced, Instruction.is_alu_instruction, Instruction.is_jump_instruction,
            Instruction.is_memory_instruction, Instruction.is_io_instruction,
            Bool.false_eq_true, if_false, if_true, reduceIte, hE, Function.update_same,
            Option.getD_some]
          rw [addrAccesses_append]
          simp only [accessesOf, eq_self_iff_true, if_true, if_pos rfl, Option.toList_some, Option.toList_none,
            List.singleton_append]
          rw [show ∀ (l : List MemoryRecordEnum) x y, l ++ [x, y] = (l ++ [x]) ++ [y]
            from fun l x y => by simp]
          exact perAddr_write _ _ _ _ _ _ _ _
            (perAddr_read _ _ _ _ _ ((e.state.clk + 1) % u32Mod)
              ((e.state.clk + 1) % u32Mod) hPA2 (by omega) (by omega) _ rfl)
            (by omega) (by omega) _ rfl
        | some old =>
          rw [hE] at hPA2
          simp only [post_dispatch, emit_events, execute_alu, rr_cpu, rr_traced, rw_cpu,
            rw_traced, Instruction.is_alu_instruction, Instruction.is_jump_instruction,
            Instruction.is_memory_instruction, Instruction.is_io_instruction,
            Bool.false_eq_true, if_false, if_true, reduceIte, hE, Function.update_same,
            Option.getD_some]
          rw [addrAccesses_append]
          simp only [accessesOf, eq_self_iff_true, if_true, if_pos rfl, Option.toList_some, Option.toList_none,
            List.singleton_append]
          rw [show ∀ (l : List MemoryRecordEnum) x y, l ++ [x, y] = (l ++ [x]) ++ [y]
            from fun l x y => by simp]
          exact perAddr_write _ _ _ _ _ _ _ _
            (perAddr_read _ _ _ _ _ ((e.state.clk + 1) % u32Mod)
              ((e.state.clk + 1) % u32Mod) hPA2 (by omega) (by omega) _ rfl)
            (by omega) (by omega) _ rfl
      · simp only [post_dispatch, emit_events, execute_alu, rr_cpu, rr_traced, rw_cpu,
          rw_traced, Instruction.is_alu_instruction, Instruction.is_jump_instruction,
          Instruction.is_memory_instruction, Instruction.is_io_instruction,
          Bool.false_eq_true, if_false, if_true, reduceIte,
          Function.update_noteq (fun h => ha h.symm)]
        rw [addrAccesses_append]
        simp only [accessesOf, if_neg ha, List.append_nil]
        exact perAddr_mono_clk _ _ _ _ _ _ (hPA a) (by omega)
    · simp only [post_dispatch, emit_events, execute_alu, rr_cpu, rr_traced, rw_cpu,
        rw_traced]
      exact hclk2
  case sub =>
    rw [execute_cycle_eq_of_instr e _ _ hfetch (exi_sub e opa) rfl] at hok
    simp only [Except.ok.injEq, Prod.mk.injEq] at hok
    obtain ⟨hd, he1⟩ := hok
    subst he1
    refine ⟨⟨rfl, rfl, ?_⟩, ?_⟩
    · intro a
      by_cases ha : e.state.mem_ptr = a
      · subst ha
        have hPA2 := hPA e.state.mem_ptr
        cases hE : e.memory_events e.state.mem_ptr with
        | none =>
          rw [hE] at hPA2
          simp only [post_dispatch, emit_events, execute_alu, rr_cpu, rr_traced, rw_cpu,
            rw_traced, Instruction.is_alu_instruction, Instruction.is_jump_instruction,
            Instruction.is_memory_instruction, Instruction.is_io_instruction,
            Bool.false_eq_true, if_false, if_true, reduceIte, hE, Function.update_same,
            Option.getD_some]
          rw [addrAccesses_append]
          simp only [accessesOf, eq_self_iff_true, if_true, if_pos rfl, Option.toList_some, Option.toList_none,
            List.singleton_append]
          rw [show ∀ (l : List MemoryRecordEnum) x y, l ++ [x, y] = (l ++ [x]) ++ [y]
            from fun l x y => by simp]
          exact perAddr_write _ _ _ _ _ _ _ _
            (perAddr_read _ _ _ _ _ ((e.state.clk + 1) % u32Mod)
              ((e.state.clk + 1) % u32Mod) hPA2 (by omega) (by omega) _ rfl)
            (by omega) (by omega) _ rfl
        | some old =>
          rw [hE] at hPA2
          simp only [post_dispatch, emit_events, execute_alu, rr_cpu, rr_traced, rw_cpu,
            rw_traced, Instruction.is_alu_instruction, Instruction.is_jump_instruction,
            Instruction.is_memory_instruction, Instruction.is_io_instruction,
            Bool.false_eq_true, if_false, if_true, reduceIte, hE, Function.update_same,
            Option.getD_some]
          rw [addrAccesses_append]
          simp only [accessesOf, eq_self_iff_true, if_true, if_pos rfl, Option.toList_some, Option.toList_none,
            List.singleton_append]
          rw [show ∀ (l : List MemoryRecordEnum) x y, l ++ [x, y] = (l ++ [x]) ++ [y]
            from fun l x y => by simp]
          exact perAddr_write _ _ _ _ _ _ _ _
            (perAddr_read _ _ _ _ _ ((e.state.clk + 1) % u32Mod)
              ((e.state.clk + 1) % u32Mod) hPA2 (by omega) (by omega) _ rfl)
            (by omega) (by omega) _ rfl
      · simp only [post_dispatch, emit_events, execute_alu, rr_cpu, rr_traced, rw_cpu,
          rw_traced, Instruction.is_alu_instruction, Instruction.is_jump_instruction,
          Instruction.is_memory_instruction, Instruction.is_io_instruction,
          Bool.false_eq_true, if_false, if_true, reduceIte,
          Function.update_noteq (fun h => ha h.symm)]
        rw [addrAccesses_append]
        simp only [accessesOf, if_neg ha, List.append_nil]
        exact perAddr_mono_clk _ _ _ _ _ _ (hPA a) (by omega)
    · simp only [post_dispatch, emit_events, execute_alu, rr_cpu, rr_traced, rw_cpu,
        rw_traced]
      exact hclk2


theorem MemInv_init (prog : List Instruction) (input : List Nat) :
    MemInv (mkExecutor prog input) := by
  refine ⟨rfl, rfl, fun a => ⟨trivial, rfl, Nat.le_refl _, fun _ => ⟨rfl, rfl⟩,
    fun r hr => Option.noConfusion hr⟩⟩

theorem MemInv_run (n : Nat) (e e1 : Executor) (hInv : MemInv e)
    (hclk : e.state.clk + 2 * n < u32Mod)
    (hrun : runFuel n e = .ok (some e1)) : MemInv e1 := by
  induction n generalizing e with
  | zero => exact Option.noConfusion (Except.ok.inj hrun)
  | succ n ih =>
    simp only [runFuel] at hrun
    cases hc : execute_cycle e with
    | error p =>
      rw [hc] at hrun
      exact Except.noConfusion hrun
    | ok pr =>
      obtain ⟨d, e2⟩ := pr
      rw [hc] at hrun
      cases hf : e.program[e.state.pc]? with
      | none =>
        rw [execute_cycle, hf] at hc
        exact Except.noConfusion hc
      | some ins =>
        obtain ⟨hInv2, hclk2⟩ := MemInv_cycle e ins d e2 hf hInv (by omega) hc
        cases d with
        | true =>
          simp only at hrun
          rw [← Option.some.inj (Except.ok.inj hrun)]
          exact hInv2
        | false =>
          simp only at hrun
          exact ih e2 hInv2 (by omega) hrun

/-- **C7.** For every terminating execution (from the zeroed initial state,
with the cycle clock not wrapping `u32`) and every address `a`: the
timestamps of the successive memory accesses to `a` strictly increase over
the whole run (an ALU cycle contributes its read at `clk+1` before its
write at `clk+2`); an address with no `MemoryEvent` was never accessed;
and the `MemoryEvent` of a touched address has `initial_mem_access` equal
to the zero record held before the first access and `final_mem_access`
equal to the record after the last access — which is also the record the
state holds at the end of the run. -/
theorem c7_memory_consistency (prog : List Instruction) (input : List Nat)
    (fuel : Nat) (e1 : Executor) (hclk : 2 * fuel < u32Mod)
    (hrun : runFuel fuel (mkExecutor prog input) = .ok (some e1)) (a : Nat) :
    List.Chain' (· < ·) ((addrAccesses e1.record.cpu_events a).map tsOf) ∧
    (e1.memory_events a = none → addrAccesses e1.record.cpu_events a = []) ∧
    (∀ ev, e1.memory_events a = some ev →
      ev.addr = a ∧ ev.initial_mem_access = ⟨0, 0⟩ ∧
      ev.final_mem_access = chainEnd ⟨0, 0⟩ (addrAccesses e1.record.cpu_events a) ∧
      e1.state.memory_access a = some ev.final_mem_access) := by
  have hInv := MemInv_run fuel (mkExecutor prog input) e1 (MemInv_init prog input)
    (by show 0 + 2 * fuel < u32Mod; omega) hrun
  obtain ⟨-, -, hPA⟩ := hInv
  obtain ⟨hchain, hend, -, hnone, hsome⟩ := hPA a
  refine ⟨chainOK_chain _ _ hchain, ?_, ?_⟩
  · intro hev
    cases hrec : e1.state.memory_access a with
    | none => exact (hnone hrec).1
    | some r =>
      obtain ⟨-, ev, hev2, -⟩ := hsome r hrec
      rw [hev] at hev2
      exact Option.noConfusion hev2
  · intro ev hev
    cases hrec : e1.state.memory_access a with
    | none =>
      rw [(hnone hrec).2] at hev
      exact Option.noConfusion hev
    | some r =>
      obtain ⟨-, ev2, hev2, haddr, hinit, hfin⟩ := hsome r hrec
      rw [hev] at hev2
      obtain he := Option.some.inj hev2
      subst he
      refine ⟨haddr, hinit, ?_, ?_⟩
      · rw [hfin, hend, hrec, Option.getD_some]
      · rw [hfin]

/-- Witness for C7: the one-cycle run of the program `+` at address 0. -/
theorem c7_memory_consistency_witness :
    2 * 1 < u32Mod ∧
    runFuel 1 (mkExecutor wProgA []) = .ok (some wFinalA) ∧
    List.Chain' (· < ·) ((addrAccesses wFinalA.record.cpu_events 0).map tsOf) :=
  ⟨by decide, rfl, (c7_memory_consistency wProgA [] 1 wFinalA (by decide) rfl 0).1⟩

/-- **C10.** Memory is implicitly zero-initialized: in every terminating
execution (from the zeroed initial state, with the cycle clock not
wrapping `u32`), the first access to any address observes value 0 and
previous timestamp 0 — a read of a never-written cell returns 0, a first
write finds previous value 0 — and every recorded `MemoryEvent` has
`initial_mem_access = (value 0, timestamp 0)`. -/
theorem c10_memory_zero_init (prog : List Instruction) (input : List Nat)
    (fuel : Nat) (e1 : Executor) (hclk : 2 * fuel < u32Mod)
    (hrun : runFuel fuel (mkExecutor prog input) = .ok (some e1)) (a : Nat) :
    (∀ acc rest, addrAccesses e1.record.cpu_events a = acc :: rest →
      (∀ r, acc = .read r → r.value = 0 ∧ r.prev_timestamp = 0) ∧
      (∀ w, acc = .write w → w.prev_value = 0 ∧ w.prev_timestamp = 0)) ∧
    (∀ ev, e1.memory_events a = some ev → ev.initial_mem_access = ⟨0, 0⟩) := by
  have hInv := MemInv_run fuel (mkExecutor prog input) e1 (MemInv_init prog input)
    (by show 0 + 2 * fuel < u32Mod; omega) hrun
  obtain ⟨-, -, hPA⟩ := hInv
  obtain ⟨hchain, -, -, hnone, hsome⟩ := hPA a
  constructor
  · intro acc rest hac
    rw [hac] at hchain
    obtain ⟨hacc, -⟩ := hchain
    constructor
    · intro r hr
      subst hr
      exact ⟨hacc.2.1, hacc.1⟩
    · intro w hw
      subst hw
      exact ⟨hacc.2.1, hacc.1⟩
  · intro ev hev
    cases hrec : e1.state.memory_access a with
    | none =>
      rw [(hnone hrec).2] at hev
      exact Option.noConfusion hev
    | some r =>
      obtain ⟨-, ev2, hev2, -, hinit, -⟩ := hsome r hrec
      rw [hev] at hev2
      rw [Option.some.inj hev2]
      exact hinit

/-- Witness for C10: the two-cycle run of `[]` at address 0, whose
`MemoryEvent` is read off concretely. -/
theorem c10_memory_zero_init_witness :
    2 * 2 < u32Mod ∧
    runFuel 2 (mkExecutor wProgB []) = .ok (some wFinalB) ∧
    wFinalB.memory_events 0 = some ⟨0, ⟨0, 0⟩, ⟨3, 0⟩⟩ ∧
    (⟨0, ⟨0, 0⟩, ⟨3, 0⟩⟩ : MemoryEvent).initial_mem_access = ⟨0, 0⟩ :=
  ⟨by decide, rfl, rfl,
    (c10_memory_zero_init wProgB [] 2 wFinalB (by decide) rfl 0).2 ⟨0, ⟨0, 0⟩, ⟨3, 0⟩⟩ rfl⟩

/-- **C1.** The claimed dispatch does not happen: `CpuChip::eval` emits the
Program-bus send (its first message, with multiplicity `is_real`), but the
body of `eval_instruction` — the function that would emit the Alu, Jump,
MemInstr and IO dispatch sends — is entirely commented out in cpu/air.rs
and `eval` never calls it, so no CPU message travels on any dispatch bus;
meanwhile `AddSubChip::eval` still posts its two Alu-bus receives on every
row, so the dispatch buses cannot balance on any run that executes an ALU
instruction. -/
theorem c1_cpu_never_dispatches (row : CpuCols) :
    (cpuEvalMessages row).filter isDispatchMsg = [] ∧
    (cpuEvalMessages row).head? =
      some (.send, ⟨[row.pc, row.instruction.opcode, row.instruction.opcode,
        row.instruction.op_a], row.is_real, .program⟩) ∧
    ∀ arow : AddSubCols, (addSubEvalMessages arow).filter isDispatchMsg ≠ [] :=
  ⟨rfl, rfl, fun arow => List.cons_ne_nil _ _⟩

end BfZkvm

